import Mathlib

/-!
Verification development for the post-flop solver core (`src/game.rs`).

The Rust source is shallowly embedded in Lean:
* cards are natural numbers in `[0, 52)`, `u64` board masks are natural
  numbers built with `2 ^ c` and bitwise `|||` / `&&&`;
* `i32` quantities are embedded as `ℤ` (the program never approaches the
  `i32` range on the quantities involved here);
* `f32`/`f64` quantities are embedded as `ℚ`: the claims under study are
  algebraic identities of the algorithm, stated over exact arithmetic;
* the external hand evaluator (`holdem_hand_evaluator`) is kept abstract as
  a score function, with the positivity contract stated by the spec;
* fallible functions return `Except String _`, mirroring `Result<_, String>`.
-/

namespace PostflopSolver

/-- `NOT_DEALT` sentinel from `game.rs`. -/
def NOT_DEALT : ℕ := 0xff

/-- `PLAYER_OOP` constant. -/
def PLAYER_OOP : ℕ := 0

/-- `PLAYER_IP` constant. -/
def PLAYER_IP : ℕ := 1

/-- `PLAYER_CHANCE` constant. -/
def PLAYER_CHANCE : ℕ := 0xff

/-- `PLAYER_MASK` constant. -/
def PLAYER_MASK : ℕ := 0xff

/-- `PLAYER_TERMINAL_FLAG` constant. -/
def PLAYER_TERMINAL_FLAG : ℕ := 0x100

/-- `PLAYER_FOLD_FLAG` constant. -/
def PLAYER_FOLD_FLAG : ℕ := 0x300

/-- Embedding of `fn board_index(mut turn: u8, mut river: u8) -> usize`:
the arguments are swapped so that the smaller one plays the role of `turn`,
then the triangular formula `turn * (101 - turn) / 2 + river - 1` is applied. -/
def board_index (turn river : ℕ) : ℕ :=
  if river < turn then river * (101 - river) / 2 + turn - 1
  else turn * (101 - turn) / 2 + river - 1

/-- The doubled triangular coefficient is exact: `t * (101 - t)` is even. -/
lemma two_mul_tri (t : ℕ) (ht : t ≤ 101) :
    2 * (t * (101 - t) / 2) = t * (101 - t) := by
  have hdvd : 2 ∣ t * (101 - t) := by
    have hev : Even (t * (101 - t)) := by
      rcases Nat.even_or_odd t with he | ho
      · exact he.mul_right _
      · have h2 : Even (101 - t) := (Nat.even_sub ht).mpr
          ⟨fun h => absurd (Nat.even_iff.mp h) (by decide),
           fun h => absurd (Nat.even_iff.mp h) (by
             have := Nat.odd_iff.mp ho; omega)⟩
        exact h2.mul_left t
    exact hev.two_dvd
  omega

/-- Strict monotonicity of the triangular index in the first coordinate. -/
lemma tri_lt_of_lt {t r t' r' : ℕ} (h1 : t < r) (h2 : r < 52) (h3 : t' < r')
    (h4 : r' < 52) (htt : t < t') :
    t * (101 - t) / 2 + r - 1 < t' * (101 - t') / 2 + r' - 1 := by
  have e1 := two_mul_tri t (by omega)
  have e2 := two_mul_tri t' (by omega)
  -- compare in ℤ, clearing the halves
  have key : t * (101 - t) + 2 * 50 < t' * (101 - t') + 2 * t' := by
    zify [Nat.le_of_lt h1, show t ≤ 101 by omega, show t' ≤ 101 by omega]
    have ha : (0 : ℤ) ≤ (t' : ℤ) - (t : ℤ) - 1 := by
      have := htt; omega
    have hb : (0 : ℤ) ≤ 102 - 2 * (t' : ℤ) := by
      have : t' ≤ 50 := by omega
      omega
    nlinarith [mul_nonneg ha hb, mul_nonneg ha (by omega : (0:ℤ) ≤ (t':ℤ) - (t:ℤ))]
  omega

/-- The triangular index of a normalized pair is below `52 * 51 / 2`. -/
lemma tri_lt_1326 {t r : ℕ} (h1 : t < r) (h2 : r < 52) :
    t * (101 - t) / 2 + r - 1 < 52 * 51 / 2 := by
  have e1 := two_mul_tri t (by omega)
  have key : t * (101 - t) ≤ 2550 := by
    zify [show t ≤ 101 by omega]
    have h50 : (0 : ℤ) ≤ 50 - (t : ℤ) := by
      have : t ≤ 50 := by omega
      omega
    nlinarith [mul_nonneg h50 (by omega : (0:ℤ) ≤ 51 - (t:ℤ))]
  omega

/-- C6: `board_index` is injective on pairs with `0 ≤ turn < river < 52`, its
values on such pairs lie in `[0, 52*51/2)`, and it is symmetric in its two
arguments whenever they are distinct: each legal `(turn, river)` board gets a
distinct slot of the `52*51/2`-entry `hand_strength` table. -/
theorem board_index_injective_bounded_symm :
    (∀ t r t' r' : ℕ, t < r → r < 52 → t' < r' → r' < 52 →
      board_index t r = board_index t' r' → t = t' ∧ r = r') ∧
    (∀ t r : ℕ, t < r → r < 52 → board_index t r < 52 * 51 / 2) ∧
    (∀ t r : ℕ, t ≠ r → board_index t r = board_index r t) := by
  refine ⟨?_, ?_, ?_⟩
  · intro t r t' r' h1 h2 h3 h4 heq
    have ht : ¬ r < t := by omega
    have ht' : ¬ r' < t' := by omega
    rw [board_index, if_neg ht, board_index, if_neg ht'] at heq
    rcases Nat.lt_trichotomy t t' with hlt | heqt | hgt
    · exact absurd heq (Nat.ne_of_lt (tri_lt_of_lt h1 h2 h3 h4 hlt))
    · subst heqt
      exact ⟨rfl, by omega⟩
    · exact absurd heq.symm (Nat.ne_of_lt (tri_lt_of_lt h3 h4 h1 h2 hgt))
  · intro t r h1 h2
    rw [board_index, if_neg (by omega : ¬ r < t)]
    exact tri_lt_1326 h1 h2
  · intro t r hne
    rcases Nat.lt_trichotomy t r with h | h | h
    · rw [board_index, if_neg (by omega : ¬ r < t), board_index, if_pos h]
    · exact absurd h hne
    · rw [board_index, if_pos h, board_index, if_neg (by omega : ¬ t < r)]

/-- Witness for C6 at concrete inputs. -/
theorem board_index_injective_bounded_symm_witness :
    ((0 : ℕ) < 1 ∧ (1 : ℕ) < 52 ∧ (2 : ℕ) < 3 ∧ (3 : ℕ) < 52 ∧
      (0 : ℕ) ≠ 1) ∧
    (board_index 0 1 = board_index 2 3 → 0 = 2 ∧ 1 = 3) ∧
    board_index 0 1 < 52 * 51 / 2 ∧
    board_index 0 1 = board_index 1 0 := by
  refine ⟨by decide, ?_, ?_, ?_⟩
  · exact fun h => board_index_injective_bounded_symm.1 0 1 2 3 (by decide)
      (by decide) (by decide) (by decide) h
  · exact board_index_injective_bounded_symm.2.1 0 1 (by decide) (by decide)
  · exact board_index_injective_bounded_symm.2.2 0 1 (by decide)

/-! ## Configuration validation (`check_config`) -/

/-- Modelled from the spec: the `Range` type of `crate::range` is not part of
`src/`; the spec describes it as a dense mapping from ordered hole-card pairs
to prior probabilities, read through `get_data`. -/
structure RangeE where
  getData : ℕ → ℕ → ℚ

/-- Modelled from the spec: `Range::is_empty` holds when the range has no
nonzero entry over the ordered pairs `c1 < c2 < 52`. -/
def RangeE.isEmpty (r : RangeE) : Bool :=
  (List.range 52).all fun c1 => (List.range 52).all fun c2 =>
    decide (¬ c1 < c2 ∨ r.getData c1 c2 = 0)

/-- The fields of `GameConfig` that `check_config` reads. Bet-size candidate
lists do not participate in validation. -/
structure GameConfigE where
  flop0 : ℕ
  flop1 : ℕ
  flop2 : ℕ
  initialPot : ℤ
  initialStack : ℤ
  rangeOop : RangeE
  rangeIp : RangeE

/-- The combination-count sum of `check_config`: over OOP pairs `c1 < c2` off
the flop whose prior is positive (the code skips the inner loop otherwise),
sum the products with IP pairs `c3 < c4` disjoint from flop and OOP cards. -/
def num_combinations (cfg : GameConfigE) : ℚ :=
  let flopMask : ℕ := 2 ^ cfg.flop0 ||| 2 ^ cfg.flop1 ||| 2 ^ cfg.flop2
  (((List.range 52).map fun c1 =>
    (((List.range 52).map fun c2 =>
      if c1 < c2 then
        let oopMask : ℕ := 2 ^ c1 ||| 2 ^ c2
        let oopProb := cfg.rangeOop.getData c1 c2
        if oopMask &&& flopMask = 0 ∧ 0 < oopProb then
          (((List.range 52).map fun c3 =>
            (((List.range 52).map fun c4 =>
              if c3 < c4 then
                let ipMask : ℕ := 2 ^ c3 ||| 2 ^ c4
                if ipMask &&& (flopMask ||| oopMask) = 0 then
                  oopProb * cfg.rangeIp.getData c3 c4
                else 0
              else 0)).sum)).sum
        else 0
      else 0)).sum)).sum

/-- The same sum as the claim states it: over all pairs of an OOP hand and an
IP hand disjoint from each other and from the flop, the product of priors,
with no skip-zero guard.  Compared against `num_combinations` below. -/
def num_combinations_unguarded (cfg : GameConfigE) : ℚ :=
  let flopMask : ℕ := 2 ^ cfg.flop0 ||| 2 ^ cfg.flop1 ||| 2 ^ cfg.flop2
  (((List.range 52).map fun c1 =>
    (((List.range 52).map fun c2 =>
      if c1 < c2 then
        let oopMask : ℕ := 2 ^ c1 ||| 2 ^ c2
        if oopMask &&& flopMask = 0 then
          (((List.range 52).map fun c3 =>
            (((List.range 52).map fun c4 =>
              if c3 < c4 then
                let ipMask : ℕ := 2 ^ c3 ||| 2 ^ c4
                if ipMask &&& (flopMask ||| oopMask) = 0 then
                  cfg.rangeOop.getData c1 c2 * cfg.rangeIp.getData c3 c4
                else 0
              else 0)).sum)).sum
        else 0
      else 0)).sum)).sum

/-- Embedding of `check_config`: the guard chain in source order; the value
returned on success is the one stored into `num_combinations_inv`. -/
def check_config (cfg : GameConfigE) : Except String ℚ :=
  if cfg.flop0 = NOT_DEALT ∨ cfg.flop1 = NOT_DEALT ∨ cfg.flop2 = NOT_DEALT then
    .error "Flop cards not initialized"
  else if 52 ≤ cfg.flop0 ∨ 52 ≤ cfg.flop1 ∨ 52 ≤ cfg.flop2 then
    .error "Flop cards must be in 0..52"
  else if cfg.flop0 = cfg.flop1 ∨ cfg.flop0 = cfg.flop2 ∨ cfg.flop1 = cfg.flop2 then
    .error "Flop cards must be unique"
  else if cfg.initialPot ≤ 0 then
    .error "Initial pot must be positive"
  else if cfg.initialStack ≤ 0 then
    .error "Initial stack must be positive"
  else if cfg.rangeOop.isEmpty then
    .error "OOP range not initialized"
  else if cfg.rangeIp.isEmpty then
    .error "IP range not initialized"
  else if num_combinations cfg = 0 then
    .error "Valid card assignment does not exist"
  else
    .ok (1 / num_combinations cfg)

/-- Embedding of `check_config` as a state transformer on the
`num_combinations_inv` field (second component): every early `return Err`
leaves the field as it was, and only the final `Ok` path assigns it. -/
def check_config_run (cfg : GameConfigE) (inv : ℚ) : Except String Unit × ℚ :=
  if cfg.flop0 = NOT_DEALT ∨ cfg.flop1 = NOT_DEALT ∨ cfg.flop2 = NOT_DEALT then
    (.error "Flop cards not initialized", inv)
  else if 52 ≤ cfg.flop0 ∨ 52 ≤ cfg.flop1 ∨ 52 ≤ cfg.flop2 then
    (.error "Flop cards must be in 0..52", inv)
  else if cfg.flop0 = cfg.flop1 ∨ cfg.flop0 = cfg.flop2 ∨ cfg.flop1 = cfg.flop2 then
    (.error "Flop cards must be unique", inv)
  else if cfg.initialPot ≤ 0 then
    (.error "Initial pot must be positive", inv)
  else if cfg.initialStack ≤ 0 then
    (.error "Initial stack must be positive", inv)
  else if cfg.rangeOop.isEmpty then
    (.error "OOP range not initialized", inv)
  else if cfg.rangeIp.isEmpty then
    (.error "IP range not initialized", inv)
  else if num_combinations cfg = 0 then
    (.error "Valid card assignment does not exist", inv)
  else
    (.ok (), 1 / num_combinations cfg)

/-- When OOP priors are nonnegative, the skip-zero guard of the code changes
nothing: the guarded sum equals the full sum of products. -/
lemma num_combinations_eq_unguarded (cfg : GameConfigE)
    (hOop : ∀ c1 c2, 0 ≤ cfg.rangeOop.getData c1 c2) :
    num_combinations cfg = num_combinations_unguarded cfg := by
  unfold num_combinations num_combinations_unguarded
  refine congrArg List.sum (List.map_congr_left fun c1 _ => ?_)
  refine congrArg List.sum (List.map_congr_left fun c2 _ => ?_)
  by_cases h12 : c1 < c2
  · simp only [if_pos h12]
    by_cases hmask :
        (2 ^ c1 ||| 2 ^ c2) &&& (2 ^ cfg.flop0 ||| 2 ^ cfg.flop1 ||| 2 ^ cfg.flop2) = 0
    · by_cases hpos : 0 < cfg.rangeOop.getData c1 c2
      · rw [if_pos ⟨hmask, hpos⟩, if_pos hmask]
      · have hzero : cfg.rangeOop.getData c1 c2 = 0 :=
          le_antisymm (not_lt.mp hpos) (hOop c1 c2)
        rw [if_neg (by tauto), if_pos hmask]
        symm
        refine List.sum_eq_zero fun x hx => ?_
        rcases List.mem_map.mp hx with ⟨c3, _, hc3⟩
        subst hc3
        refine List.sum_eq_zero fun y hy => ?_
        rcases List.mem_map.mp hy with ⟨c4, _, hc4⟩
        subst hc4
        simp only [hzero, zero_mul, ite_self]
    · rw [if_neg (by tauto), if_neg hmask]
  · rw [if_neg h12, if_neg h12]

/-- C5: `check_config` returns an error iff a flop card is the not-dealt
sentinel, a flop card is out of `[0, 52)`, two flop cards collide, the pot or
the stack is nonpositive, a range is empty, or the sum over non-colliding
(OOP hand, IP hand) pairs of products of priors is zero; on success it stores
`num_combinations_inv = 1 /` that sum.  Priors are probabilities, so the OOP
range is assumed nonnegative (the code skips nonpositive OOP entries). -/
theorem check_config_error_iff (cfg : GameConfigE)
    (hOop : ∀ c1 c2, 0 ≤ cfg.rangeOop.getData c1 c2) :
    ((check_config cfg).isOk = false ↔
      ((cfg.flop0 = NOT_DEALT ∨ cfg.flop1 = NOT_DEALT ∨ cfg.flop2 = NOT_DEALT) ∨
       (52 ≤ cfg.flop0 ∨ 52 ≤ cfg.flop1 ∨ 52 ≤ cfg.flop2) ∨
       (cfg.flop0 = cfg.flop1 ∨ cfg.flop0 = cfg.flop2 ∨ cfg.flop1 = cfg.flop2) ∨
       cfg.initialPot ≤ 0 ∨ cfg.initialStack ≤ 0 ∨
       cfg.rangeOop.isEmpty = true ∨ cfg.rangeIp.isEmpty = true ∨
       num_combinations_unguarded cfg = 0)) ∧
    (∀ v, check_config cfg = .ok v → v = 1 / num_combinations_unguarded cfg) := by
  have hng := num_combinations_eq_unguarded cfg hOop
  constructor
  · unfold check_config
    split_ifs with h1 h2 h3 h4 h5 h6 h7 h8 <;>
      first
        | (refine iff_of_true rfl ?_; simp only [← hng]; tauto)
        | (refine iff_of_false (by simp [Except.isOk, Except.toBool]) ?_;
            simp only [← hng]; tauto)
  · intro v hv
    unfold check_config at hv
    split_ifs at hv with h1 h2 h3 h4 h5 h6 h7 h8
    rw [← hng]
    exact (Except.ok.injEq _ _).mp hv.symm

/-- Witness for C5: a configuration with constant OOP priors. -/
theorem check_config_error_iff_witness :
    (∀ c1 c2 : ℕ,
      0 ≤ (RangeE.mk fun _ _ => 1).getData c1 c2) ∧
    (((check_config (GameConfigE.mk 0 1 2 10 100 (RangeE.mk fun _ _ => 1)
        (RangeE.mk fun _ _ => 1))).isOk = false ↔
      (((0:ℕ) = NOT_DEALT ∨ (1:ℕ) = NOT_DEALT ∨ (2:ℕ) = NOT_DEALT) ∨
       ((52:ℕ) ≤ 0 ∨ (52:ℕ) ≤ 1 ∨ (52:ℕ) ≤ 2) ∨
       ((0:ℕ) = 1 ∨ (0:ℕ) = 2 ∨ (1:ℕ) = 2) ∨
       (10:ℤ) ≤ 0 ∨ (100:ℤ) ≤ 0 ∨
       (RangeE.mk fun _ _ => (1:ℚ)).isEmpty = true ∨
       (RangeE.mk fun _ _ => (1:ℚ)).isEmpty = true ∨
       num_combinations_unguarded (GameConfigE.mk 0 1 2 10 100
         (RangeE.mk fun _ _ => 1) (RangeE.mk fun _ _ => 1)) = 0)) ∧
     (∀ v, check_config (GameConfigE.mk 0 1 2 10 100 (RangeE.mk fun _ _ => 1)
        (RangeE.mk fun _ _ => 1)) = .ok v →
       v = 1 / num_combinations_unguarded (GameConfigE.mk 0 1 2 10 100
         (RangeE.mk fun _ _ => 1) (RangeE.mk fun _ _ => 1)))) :=
  ⟨fun _ _ => by norm_num [RangeE.getData],
   check_config_error_iff _ (fun _ _ => by norm_num [RangeE.getData])⟩

/-- C9: when `check_config` fails, the `num_combinations_inv` field is not
touched: every validation failure returns before the assignment. -/
theorem check_config_run_error_frame (cfg : GameConfigE) (inv : ℚ)
    (e : String) (herr : (check_config_run cfg inv).1 = .error e) :
    (check_config_run cfg inv).2 = inv := by
  unfold check_config_run at herr ⊢
  split_ifs at herr ⊢ <;> simp_all

/-- Witness for C9: an uninitialized flop leaves the field unchanged. -/
theorem check_config_run_error_frame_witness :
    (check_config_run (GameConfigE.mk NOT_DEALT NOT_DEALT NOT_DEALT 0 0
        (RangeE.mk fun _ _ => 0) (RangeE.mk fun _ _ => 0)) 7).1 =
      .error "Flop cards not initialized" ∧
    (check_config_run (GameConfigE.mk NOT_DEALT NOT_DEALT NOT_DEALT 0 0
        (RangeE.mk fun _ _ => 0) (RangeE.mk fun _ _ => 0)) 7).2 = 7 :=
  ⟨by rfl,
   check_config_run_error_frame _ 7 "Flop cards not initialized" (by rfl)⟩

/-! ## Card text parsing (`flop_from_str`, `card_from_str`)

Strings are embedded as `List Char`; the two-`next()` consumption of
`card_from_str` becomes a function returning the parsed card and the rest of
the character stream.  `sort_unstable` on naturals is embedded as
`insertionSort` (both produce the unique sorted permutation). -/

instance instDecEqExcept {ε : Type u} {α : Type v} [DecidableEq ε] [DecidableEq α] :
    DecidableEq (Except ε α) := fun x y =>
  match x, y with
  | .ok a, .ok b =>
    if h : a = b then isTrue (by rw [h]) else isFalse (fun hh => h (Except.ok.inj hh))
  | .error a, .error b =>
    if h : a = b then isTrue (by rw [h]) else isFalse (fun hh => h (Except.error.inj hh))
  | .ok _, .error _ => isFalse (fun hh => Except.noConfusion hh)
  | .error _, .ok _ => isFalse (fun hh => Except.noConfusion hh)

/-- The code points of Rust's `char::is_whitespace` (Unicode `White_Space`). -/
def rustWhitespaceCodes : List ℕ :=
  [0x09, 0x0A, 0x0B, 0x0C, 0x0D, 0x20, 0x85, 0xA0, 0x1680,
   0x2000, 0x2001, 0x2002, 0x2003, 0x2004, 0x2005, 0x2006, 0x2007,
   0x2008, 0x2009, 0x200A, 0x2028, 0x2029, 0x202F, 0x205F, 0x3000]

/-- Embedding of `char::is_whitespace`. -/
def isRustWhitespace (c : Char) : Bool :=
  decide (c.toNat ∈ rustWhitespaceCodes)

/-- The rank arm of `card_from_str`: `A K Q J T` and `'2'..='9'` (a `match`
on character literals, embedded as the equality chain it denotes). -/
def rank_from_char (c : Char) : Except String ℕ :=
  if c = 'A' then .ok 12
  else if c = 'K' then .ok 11
  else if c = 'Q' then .ok 10
  else if c = 'J' then .ok 9
  else if c = 'T' then .ok 8
  else if '2' ≤ c ∧ c ≤ '9' then .ok (c.toNat - 50)
  else .error "expected rank"

/-- The suit arm of `card_from_str`. -/
def suit_from_char (c : Char) : Except String ℕ :=
  if c = 's' then .ok 3
  else if c = 'h' then .ok 2
  else if c = 'd' then .ok 1
  else if c = 'c' then .ok 0
  else .error "expected suit"

/-- Embedding of `card_from_str`: take two characters (failing with
"parse failed" if the stream is short), decode rank then suit (the `?`
operator written as an explicit match), and return `(rank << 2) | suit` with
the remaining stream. -/
def card_from_str : List Char → Except String (ℕ × List Char)
  | [] => .error "parse failed"
  | [_] => .error "parse failed"
  | r :: s :: rest =>
    match rank_from_char r with
    | .error e => .error e
    | .ok rank =>
      match suit_from_char s with
      | .error e => .error e
      | .ok suit => .ok ((rank <<< 2) ||| suit, rest)

/-- Embedding of `flop_from_str`: three cards, whitespace skipped only
between the first and second and between the second and third tokens, then
the trailing-content check, the sort, and the duplicate check. -/
def flop_from_str (s : List Char) : Except String (List ℕ) :=
  match card_from_str s with
  | .error e => .error e
  | .ok (c0, rest0) =>
    match card_from_str (rest0.dropWhile isRustWhitespace) with
    | .error e => .error e
    | .ok (c1, rest1) =>
      match card_from_str (rest1.dropWhile isRustWhitespace) with
      | .error e => .error e
      | .ok (c2, rest2) =>
        if rest2.isEmpty then
          let sorted := [c0, c1, c2].insertionSort (· ≤ ·)
          if sorted.getD 0 0 = sorted.getD 1 0 ∨ sorted.getD 1 0 = sorted.getD 2 0 then
            .error "cards must be unique"
          else .ok sorted
        else .error "expected three cards"

/-- A successfully decoded rank character is not whitespace. -/
lemma rank_ok_not_ws {c : Char} {v : ℕ} (h : rank_from_char c = .ok v) :
    isRustWhitespace c = false := by
  unfold rank_from_char at h
  split_ifs at h with h1 h2 h3 h4 h5 h6
  · subst h1; decide
  · subst h2; decide
  · subst h3; decide
  · subst h4; decide
  · subst h5; decide
  · have hlo : 50 ≤ c.toNat := Char.le_def.mp h6.1
    have hhi : c.toNat ≤ 57 := Char.le_def.mp h6.2
    have hnm : ¬ (c.toNat ∈ rustWhitespaceCodes) := by
      intro hmem
      simp only [rustWhitespaceCodes, List.mem_cons, List.not_mem_nil,
        or_false] at hmem
      rcases hmem with h|h|h|h|h|h|h|h|h|h|h|h|h|h|h|h|h|h|h|h|h|h|h|h|h <;>
        omega
    simpa [isRustWhitespace] using hnm

/-- A whitespace character is rejected by the rank decoder. -/
lemma ws_rank_error {c : Char} (hws : isRustWhitespace c = true) :
    rank_from_char c = .error "expected rank" := by
  unfold rank_from_char
  split_ifs with h1 h2 h3 h4 h5 h6
  · subst h1; exact absurd hws (by decide)
  · subst h2; exact absurd hws (by decide)
  · subst h3; exact absurd hws (by decide)
  · subst h4; exact absurd hws (by decide)
  · subst h5; exact absurd hws (by decide)
  · have hlo : 50 ≤ c.toNat := Char.le_def.mp h6.1
    have hhi : c.toNat ≤ 57 := Char.le_def.mp h6.2
    have hmem : c.toNat ∈ rustWhitespaceCodes := by
      simpa [isRustWhitespace] using hws
    simp only [rustWhitespaceCodes, List.mem_cons, List.not_mem_nil,
      or_false] at hmem
    rcases hmem with h|h|h|h|h|h|h|h|h|h|h|h|h|h|h|h|h|h|h|h|h|h|h|h|h <;>
      omega
  · rfl

/-- `card_from_str` on a two-character token followed by a rest stream. -/
lemma card_from_str_append {r s : Char} {a : ℕ}
    (h : card_from_str [r, s] = .ok (a, [])) (rest : List Char) :
    card_from_str (r :: s :: rest) = .ok (a, rest) := by
  simp only [card_from_str] at h ⊢
  cases hr : rank_from_char r with
  | error e => rw [hr] at h; exact Except.noConfusion h
  | ok rank =>
    rw [hr] at h
    cases hs : suit_from_char s with
    | error e => rw [hs] at h; exact Except.noConfusion h
    | ok suit =>
      rw [hs] at h
      have := (Prod.mk.injEq _ _ _ _).mp (Except.ok.inj h)
      show Except.ok ((rank <<< 2) ||| suit, rest) = Except.ok (a, rest)
      rw [this.1]

/-- `card_from_str` consumes exactly two characters. -/
lemma card_from_str_length {s : List Char} {a : ℕ} {rest : List Char}
    (h : card_from_str s = .ok (a, rest)) : s.length = rest.length + 2 := by
  match s with
  | [] => exact Except.noConfusion h
  | [_] => exact Except.noConfusion h
  | r :: c :: t =>
    simp only [card_from_str] at h
    cases hr : rank_from_char r with
    | error e => rw [hr] at h; exact Except.noConfusion h
    | ok rank =>
      rw [hr] at h
      cases hs : suit_from_char c with
      | error e => rw [hs] at h; exact Except.noConfusion h
      | ok suit =>
        rw [hs] at h
        have := (Prod.mk.injEq _ _ _ _).mp (Except.ok.inj h)
        simp [← this.2]

/-- Dropping whitespace over an all-whitespace run stops at the first
non-whitespace character. -/
lemma dropWhile_ws_append {w : List Char} (hw : w.all isRustWhitespace = true)
    {r : Char} (hr : isRustWhitespace r = false) (t : List Char) :
    (w ++ r :: t).dropWhile isRustWhitespace = r :: t := by
  induction w with
  | nil => simp [List.dropWhile, hr]
  | cons c w ih =>
    rcases List.all_eq_true.mp hw c (by simp) with hc
    have hw' : w.all isRustWhitespace = true :=
      List.all_eq_true.mpr fun x hx => List.all_eq_true.mp hw x (by simp [hx])
    simp [List.dropWhile, hc, ih hw']

/-- A sorted three-element list of distinct naturals has distinct adjacent
entries; with a duplicate present it has an equal adjacent pair. -/
lemma sort3_adjacent (a b c : ℕ) :
    let l := [a, b, c].insertionSort (· ≤ ·)
    (a ≠ b → a ≠ c → b ≠ c →
      ¬(l.getD 0 0 = l.getD 1 0 ∨ l.getD 1 0 = l.getD 2 0)) ∧
    (¬(a ≠ b ∧ a ≠ c ∧ b ≠ c) →
      (l.getD 0 0 = l.getD 1 0 ∨ l.getD 1 0 = l.getD 2 0)) := by
  intro l
  have hperm : l.Perm [a, b, c] := List.perm_insertionSort _ _
  have hsort : List.Sorted (· ≤ ·) l := List.sorted_insertionSort _ _
  have hlen : l.length = 3 := by simpa using hperm.length_eq
  match hl : l, hlen with
  | [x, y, z], _ =>
    have hxy : x ≤ y := List.rel_of_sorted_cons hsort y (by simp)
    have hyz : y ≤ z := by
      have := List.sorted_cons.mp hsort
      exact List.rel_of_sorted_cons this.2 z (by simp)
    constructor
    · intro hab hac hbc hdup
      have hnd : ([x, y, z] : List ℕ).Nodup := by
        rw [List.Perm.nodup_iff hperm]
        simp [hab, hac, hbc]
      simp only [List.getD] at hdup
      simp only [List.nodup_cons, List.mem_cons, List.not_mem_nil] at hnd
      rcases hdup with h | h <;> simp_all
    · intro hdup
      have hnd : ¬ ([x, y, z] : List ℕ).Nodup := by
        rw [List.Perm.nodup_iff hperm]
        intro hnd2
        rw [List.nodup_cons, List.nodup_cons] at hnd2
        push_neg at hdup
        simp only [List.mem_cons, List.not_mem_nil, or_false] at hnd2
        tauto
      have hcase : x = y ∨ x = z ∨ y = z := by
        by_contra hc
        push_neg at hc
        exact hnd (by
          rw [List.nodup_cons, List.nodup_cons]
          simp only [List.mem_cons, List.not_mem_nil, or_false]
          exact ⟨by tauto, by tauto, List.nodup_singleton z⟩)
      show x = y ∨ y = z
      rcases hcase with h | h | h
      · exact Or.inl h
      · omega
      · exact Or.inr h

/-- A stream accepted by `card_from_str` starts with a rank character, which
is never whitespace. -/
lemma card_ok_not_ws {r : Char} {t : List Char} {x : ℕ × List Char}
    (h : card_from_str (r :: t) = .ok x) : isRustWhitespace r = false := by
  match t with
  | [] => exact Except.noConfusion h
  | s :: t' =>
    simp only [card_from_str] at h
    cases hr : rank_from_char r with
    | error e => rw [hr] at h; exact Except.noConfusion h
    | ok rank => exact rank_ok_not_ws hr

/-- The full successful pipeline of `flop_from_str` on three well-formed
tokens with whitespace runs between them and an arbitrary remainder. -/
lemma flop_from_str_pipeline {r1 s1 r2 s2 r3 s3 : Char} {w1 w2 : List Char}
    {a b c : ℕ} (extra : List Char)
    (h1 : card_from_str [r1, s1] = .ok (a, []))
    (h2 : card_from_str [r2, s2] = .ok (b, []))
    (h3 : card_from_str [r3, s3] = .ok (c, []))
    (hw1 : w1.all isRustWhitespace = true)
    (hw2 : w2.all isRustWhitespace = true) :
    flop_from_str (r1 :: s1 :: (w1 ++ r2 :: s2 :: (w2 ++ r3 :: s3 :: extra))) =
      (if extra.isEmpty then
        if ([a, b, c].insertionSort (· ≤ ·)).getD 0 0 =
              ([a, b, c].insertionSort (· ≤ ·)).getD 1 0 ∨
            ([a, b, c].insertionSort (· ≤ ·)).getD 1 0 =
              ([a, b, c].insertionSort (· ≤ ·)).getD 2 0 then
          .error "cards must be unique"
        else .ok ([a, b, c].insertionSort (· ≤ ·))
      else .error "expected three cards") := by
  have e1 := card_from_str_append h1 (w1 ++ r2 :: s2 :: (w2 ++ r3 :: s3 :: extra))
  have hr2 : isRustWhitespace r2 = false :=
    @card_ok_not_ws r2 [s2] (b, []) h2
  have hr3 : isRustWhitespace r3 = false :=
    @card_ok_not_ws r3 [s3] (c, []) h3
  have d1 : (w1 ++ r2 :: s2 :: (w2 ++ r3 :: s3 :: extra)).dropWhile
      isRustWhitespace = r2 :: s2 :: (w2 ++ r3 :: s3 :: extra) :=
    dropWhile_ws_append hw1 hr2 _
  have e2 := card_from_str_append h2 (w2 ++ r3 :: s3 :: extra)
  have d2 : (w2 ++ r3 :: s3 :: extra).dropWhile isRustWhitespace =
      r3 :: s3 :: extra := dropWhile_ws_append hw2 hr3 _
  have e3 := card_from_str_append h3 extra
  simp only [flop_from_str, e1, d1, e2, d2, e3]

/-- C8: `flop_from_str` parses exactly three two-character card tokens with
optional whitespace between them into the sorted triple of card codes.  The
two concrete examples hold; three well-formed distinct tokens succeed with
the sorted triple; duplicate cards, trailing content, an invalid rank or
suit character, and inputs shorter than six characters are rejected. -/
theorem flop_from_str_spec :
    (flop_from_str "Qs Jh 2h".toList = .ok [2, 38, 43]) ∧
    (flop_from_str "Td9d6h".toList = .ok [18, 29, 33]) ∧
    (∀ (r1 s1 r2 s2 r3 s3 : Char) (w1 w2 : List Char) (a b c : ℕ),
      card_from_str [r1, s1] = .ok (a, []) →
      card_from_str [r2, s2] = .ok (b, []) →
      card_from_str [r3, s3] = .ok (c, []) →
      w1.all isRustWhitespace = true → w2.all isRustWhitespace = true →
      a ≠ b → a ≠ c → b ≠ c →
      flop_from_str (r1 :: s1 :: (w1 ++ r2 :: s2 :: (w2 ++ [r3, s3]))) =
        .ok ([a, b, c].insertionSort (· ≤ ·))) ∧
    (∀ (r1 s1 r2 s2 r3 s3 : Char) (w1 w2 : List Char) (a b c : ℕ),
      card_from_str [r1, s1] = .ok (a, []) →
      card_from_str [r2, s2] = .ok (b, []) →
      card_from_str [r3, s3] = .ok (c, []) →
      w1.all isRustWhitespace = true → w2.all isRustWhitespace = true →
      ¬(a ≠ b ∧ a ≠ c ∧ b ≠ c) →
      (flop_from_str (r1 :: s1 :: (w1 ++ r2 :: s2 :: (w2 ++ [r3, s3])))).isOk
        = false) ∧
    (∀ (r1 s1 r2 s2 r3 s3 : Char) (w1 w2 extra : List Char) (a b c : ℕ),
      card_from_str [r1, s1] = .ok (a, []) →
      card_from_str [r2, s2] = .ok (b, []) →
      card_from_str [r3, s3] = .ok (c, []) →
      w1.all isRustWhitespace = true → w2.all isRustWhitespace = true →
      extra ≠ [] →
      (flop_from_str
        (r1 :: s1 :: (w1 ++ r2 :: s2 :: (w2 ++ r3 :: s3 :: extra)))).isOk
        = false) ∧
    (∀ (r s : Char) (rest : List Char) (e : String),
      rank_from_char r = .error e →
      (flop_from_str (r :: s :: rest)).isOk = false) ∧
    (∀ (r s : Char) (rest : List Char) (rank : ℕ) (e : String),
      rank_from_char r = .ok rank → suit_from_char s = .error e →
      (flop_from_str (r :: s :: rest)).isOk = false) ∧
    (∀ s : List Char, (flop_from_str s).isOk = true → 6 ≤ s.length) := by
  refine ⟨by decide, by decide, ?_, ?_, ?_, ?_, ?_, ?_⟩
  · intro r1 s1 r2 s2 r3 s3 w1 w2 a b c h1 h2 h3 hw1 hw2 hab hac hbc
    have := flop_from_str_pipeline [] h1 h2 h3 hw1 hw2
    rw [show (w2 ++ [r3, s3]) = w2 ++ r3 :: s3 :: ([] : List Char) from rfl, this]
    rw [if_pos List.isEmpty_nil, if_neg ((sort3_adjacent a b c).1 hab hac hbc)]
  · intro r1 s1 r2 s2 r3 s3 w1 w2 a b c h1 h2 h3 hw1 hw2 hdup
    have := flop_from_str_pipeline [] h1 h2 h3 hw1 hw2
    rw [show (w2 ++ [r3, s3]) = w2 ++ r3 :: s3 :: ([] : List Char) from rfl, this]
    rw [if_pos List.isEmpty_nil, if_pos ((sort3_adjacent a b c).2 hdup)]
    rfl
  · intro r1 s1 r2 s2 r3 s3 w1 w2 extra a b c h1 h2 h3 hw1 hw2 hex
    rw [flop_from_str_pipeline extra h1 h2 h3 hw1 hw2]
    rw [if_neg (by cases extra with
      | nil => exact absurd rfl hex
      | cons x t => simp [List.isEmpty])]
    rfl
  · intro r s rest e hrank
    simp only [flop_from_str, card_from_str, hrank]
    rfl
  · intro r s rest rank e hrank hsuit
    simp only [flop_from_str, card_from_str, hrank, hsuit]
    rfl
  · intro s hok
    cases hc0 : card_from_str s with
    | error e =>
      rw [flop_from_str, hc0] at hok
      simp [Except.isOk, Except.toBool] at hok
    | ok p0 =>
      obtain ⟨c0, rest0⟩ := p0
      cases hc1 : card_from_str (rest0.dropWhile isRustWhitespace) with
      | error e =>
        rw [flop_from_str, hc0] at hok
        simp only [hc1] at hok
        simp [Except.isOk, Except.toBool] at hok
      | ok p1 =>
        obtain ⟨c1, rest1⟩ := p1
        cases hc2 : card_from_str (rest1.dropWhile isRustWhitespace) with
        | error e =>
          rw [flop_from_str, hc0] at hok
          simp only [hc1, hc2] at hok
          simp [Except.isOk, Except.toBool] at hok
        | ok p2 =>
          obtain ⟨c2, rest2⟩ := p2
          have l0 := card_from_str_length hc0
          have l1 := card_from_str_length hc1
          have l2 := card_from_str_length hc2
          have d0 : (rest0.dropWhile isRustWhitespace).length ≤ rest0.length :=
            (List.dropWhile_sublist _).length_le
          have d1 : (rest1.dropWhile isRustWhitespace).length ≤ rest1.length :=
            (List.dropWhile_sublist _).length_le
          omega

/-- Witness for C8 at concrete inputs: `"2c"`, `"3d"`, `"4h"` with a single
space between the first two tokens. -/
theorem flop_from_str_spec_witness :
    (card_from_str "2c".toList = .ok (0, []) ∧
     card_from_str "3d".toList = .ok (5, []) ∧
     card_from_str "4h".toList = .ok (10, []) ∧
     ([' '] : List Char).all isRustWhitespace = true ∧
     ([] : List Char).all isRustWhitespace = true ∧
     (0 : ℕ) ≠ 5 ∧ (0 : ℕ) ≠ 10 ∧ (5 : ℕ) ≠ 10) ∧
    flop_from_str ('2' :: 'c' :: ([' '] ++ '3' :: 'd' :: ([] ++ ['4', 'h']))) =
      .ok ([0, 5, 10].insertionSort (· ≤ ·)) :=
  ⟨⟨by decide, by decide, by decide, by decide, by decide, by decide, by decide,
    by decide⟩,
   flop_from_str_spec.2.2.1 '2' 'c' '3' 'd' '4' 'h' [' '] [] 0 5 10
     (by decide) (by decide) (by decide) (by decide) (by decide)
     (by decide) (by decide) (by decide)⟩

/-- C10: `flop_from_str` rejects every input whose first character is
whitespace: whitespace is skipped only between tokens, never before the
first one, and a whitespace character is not a valid rank. -/
theorem flop_from_str_leading_ws (c : Char) (s : List Char)
    (hws : isRustWhitespace c = true) :
    (flop_from_str (c :: s)).isOk = false := by
  match s with
  | [] => rfl
  | x :: t =>
    simp only [flop_from_str, card_from_str, ws_rank_error hws]
    rfl

/-- Witness for C10: a leading space before a valid flop string. -/
theorem flop_from_str_leading_ws_witness :
    isRustWhitespace ' ' = true ∧
    (flop_from_str (' ' :: "Qs Jh 2h".toList)).isOk = false :=
  ⟨by decide, flop_from_str_leading_ws ' ' "Qs Jh 2h".toList (by decide)⟩

/-! ## Terminal evaluation (`evaluate`)

The `f32`/`f64` arithmetic of `evaluate` is embedded over `ℚ`; the imperative
prefix-sum vectors become functions of the entry index (entry `k` is the sum
of the first `k` pushed contributions, exactly what the loop maintains). -/

/-- The fields of `PostFlopNode` that `evaluate` reads. -/
structure PostFlopNodeE where
  player : ℕ
  turn : ℕ
  river : ℕ
  amount : ℤ

/-- The `HandStrength` record of `game.rs`. -/
structure HandStrengthE where
  opponent_increasing_index : List ℕ
  exclude_threshold : ℕ
  win_threshold : List ℕ
  tie_threshold : List ℕ

/-- The fields of `PostFlopGame` that `evaluate` reads.  The per-player
arrays are stored as two fields, indexed through `cards` / `sameHand`;
`hand_strength` is the precomputed table indexed by `board_index`. -/
structure PostFlopGameE where
  flop0 : ℕ
  flop1 : ℕ
  flop2 : ℕ
  initialPot : ℤ
  num_combinations_inv : ℚ
  hand_cards0 : List (ℕ × ℕ)
  hand_cards1 : List (ℕ × ℕ)
  same_hand0 : List (Option ℕ)
  same_hand1 : List (Option ℕ)
  hand_strength : ℕ → ℕ → HandStrengthE

/-- `self.private_hand_cards[p]`. -/
def PostFlopGameE.cards (g : PostFlopGameE) (p : ℕ) : List (ℕ × ℕ) :=
  if p = 0 then g.hand_cards0 else g.hand_cards1

/-- `self.same_hand_index[p]`. -/
def PostFlopGameE.sameHand (g : PostFlopGameE) (p : ℕ) : List (Option ℕ) :=
  if p = 0 then g.same_hand0 else g.same_hand1

/-- The board mask computed at the top of `evaluate`. -/
def board_mask_of (g : PostFlopGameE) (node : PostFlopNodeE) : ℕ :=
  2 ^ g.flop0 ||| 2 ^ g.flop1 ||| 2 ^ g.flop2 ||| 2 ^ node.turn ||| 2 ^ node.river

/-- `result.iter_mut().enumerate()`: map with the running index. -/
def mapIdxFrom {α β : Type} (f : ℕ → α → β) : ℕ → List α → List β
  | _, [] => []
  | n, a :: t => f n a :: mapIdxFrom f (n + 1) t

/-- Fold branch: the accumulated `cfreach_sum` over opponent hands not
conflicting with the board. -/
def fold_cfreach_sum (bm : ℕ) (oppCards : List (ℕ × ℕ)) (cfreach : List ℚ) : ℚ :=
  (oppCards.enum.map fun p =>
    if (2 ^ p.2.1 ||| 2 ^ p.2.2) &&& bm = 0 then cfreach.getD p.1 0 else 0).sum

/-- Fold branch: the accumulated `cfreach_minus[c]`: each non-conflicting
opponent hand adds its reach at both of its card slots. -/
def fold_cfreach_minus (bm : ℕ) (oppCards : List (ℕ × ℕ)) (cfreach : List ℚ)
    (c : ℕ) : ℚ :=
  (oppCards.enum.map fun p =>
    if (2 ^ p.2.1 ||| 2 ^ p.2.2) &&& bm = 0 then
      (if c = p.2.1 then cfreach.getD p.1 0 else 0) +
      (if c = p.2.2 then cfreach.getD p.1 0 else 0)
    else 0).sum

/-- Showdown branch: entry `k` of the prefix vector `cfreach_sum` built along
`opponent_increasing_index`. -/
def sd_cfreach_sum (cfreach : List ℚ) (sortedIdx : List ℕ) (k : ℕ) : ℚ :=
  ((sortedIdx.take k).map fun j => cfreach.getD j 0).sum

/-- Showdown branch: entry `k`, card `c` of the prefix vector
`cfreach_minus`. -/
def sd_cfreach_minus (cfreach : List ℚ) (oppCards : List (ℕ × ℕ))
    (sortedIdx : List ℕ) (k c : ℕ) : ℚ :=
  ((sortedIdx.take k).map fun j =>
    (if c = (oppCards.getD j (0, 0)).1 then cfreach.getD j 0 else 0) +
    (if c = (oppCards.getD j (0, 0)).2 then cfreach.getD j 0 else 0)).sum

/-- One band query of the showdown evaluator: the difference of the
`cfreach_sum` prefix sums over `[a, b)` minus the per-card prefix-sum
differences at the two player cards. -/
def sd_band_query (cfreach : List ℚ) (oppCards : List (ℕ × ℕ))
    (sIdx : List ℕ) (a b c1 c2 : ℕ) : ℚ :=
  (sd_cfreach_sum cfreach sIdx b - sd_cfreach_sum cfreach sIdx a)
  - (sd_cfreach_minus cfreach oppCards sIdx b c1 -
     sd_cfreach_minus cfreach oppCards sIdx a c1)
  - (sd_cfreach_minus cfreach oppCards sIdx b c2 -
     sd_cfreach_minus cfreach oppCards sIdx a c2)

/-- The fold-terminal arm of `evaluate`.  Per player hand not conflicting
with the board, the counterfactual value is the normalized payoff times the
inclusion-exclusion reach `cfreach_sum - (cfreach_minus[c1] +
cfreach_minus[c2]) + same-hand correction`; conflicting entries keep their
incoming value. -/
def evaluate_fold_values (g : PostFlopGameE) (result : List ℚ)
    (node : PostFlopNodeE) (player : ℕ) (cfreach : List ℚ) : List ℚ :=
  mapIdxFrom (fun i cfv =>
    let h := (g.cards player).getD i (0, 0)
    if (2 ^ h.1 ||| 2 ^ h.2) &&& board_mask_of g node = 0 then
      ((if node.player &&& PLAYER_MASK = player then -node.amount
        else g.initialPot + node.amount : ℤ) : ℚ) * g.num_combinations_inv *
        (fold_cfreach_sum (board_mask_of g node) (g.cards (player ^^^ 1)) cfreach
          - (fold_cfreach_minus (board_mask_of g node) (g.cards (player ^^^ 1))
               cfreach h.1 +
             fold_cfreach_minus (board_mask_of g node) (g.cards (player ^^^ 1))
               cfreach h.2)
          + (((g.sameHand player).getD i none).map
              (fun j => cfreach.getD j 0)).getD 0)
    else cfv) 0 result

/-- The showdown arm of `evaluate`: per non-conflicting player hand, band
queries of the prefix sums at `exclude_threshold`, `win_threshold[i]`,
`tie_threshold[i]` and `cfreach.len()` weighted by the three payoffs. -/
def evaluate_showdown_values (g : PostFlopGameE) (result : List ℚ)
    (node : PostFlopNodeE) (player : ℕ) (cfreach : List ℚ) : List ℚ :=
  mapIdxFrom (fun i cfv =>
    let hs := g.hand_strength (board_index node.turn node.river) player
    let bm := board_mask_of g node
    let oppCards := g.cards (player ^^^ 1)
    let sIdx := hs.opponent_increasing_index
    let h := (g.cards player).getD i (0, 0)
    if (2 ^ h.1 ||| 2 ^ h.2) &&& bm = 0 then
      let x := hs.exclude_threshold
      let L := cfreach.length
      let w := hs.win_threshold.getD i 0
      let t := hs.tie_threshold.getD i 0
      let win_cfreach := sd_band_query cfreach oppCards sIdx x w h.1 h.2
      let tie_cfreach := sd_band_query cfreach oppCards sIdx w t h.1 h.2
        + (((g.sameHand player).getD i none).map
            (fun j => cfreach.getD j 0)).getD 0
      let lose_cfreach := sd_band_query cfreach oppCards sIdx t L h.1 h.2
      (((g.initialPot + node.amount : ℤ) : ℚ) * win_cfreach +
        (g.initialPot : ℚ) * (1 / 2) * tie_cfreach +
        ((-node.amount : ℤ) : ℚ) * lose_cfreach) * g.num_combinations_inv
    else cfv) 0 result

/-- Embedding of `PostFlopGame::evaluate`: dispatch on the fold flag. -/
def evaluate (g : PostFlopGameE) (result : List ℚ) (node : PostFlopNodeE)
    (player : ℕ) (cfreach : List ℚ) : List ℚ :=
  if node.player &&& PLAYER_FOLD_FLAG = PLAYER_FOLD_FLAG then
    evaluate_fold_values g result node player cfreach
  else
    evaluate_showdown_values g result node player cfreach

/-- `opponent_hands.binary_search(hand).ok()` over the sorted duplicate-free
opponent list: the index of the identical hand when present. -/
def findIndexOf (target : ℕ × ℕ) : List (ℕ × ℕ) → Option ℕ
  | [] => none
  | h :: t => if h = target then some 0 else (findIndexOf target t).map (· + 1)

/-- `init_range`: the `same_hand_index` list for one player. -/
def same_hand_index_of (playerCards oppCards : List (ℕ × ℕ)) :
    List (Option ℕ) :=
  playerCards.map fun h => findIndexOf h oppCards

/-! ### List helper lemmas -/

lemma mapIdxFrom_getD {α β : Type} (f : ℕ → α → β) (l : List α) (n i : ℕ)
    (hi : i < l.length) (d : β) (d0 : α) :
    (mapIdxFrom f n l).getD i d = f (n + i) (l.getD i d0) := by
  induction l generalizing n i with
  | nil => cases hi
  | cons a t ih =>
    cases i with
    | zero => simp [mapIdxFrom]
    | succ k =>
      rw [mapIdxFrom, List.getD_cons_succ, List.getD_cons_succ,
        ih (n + 1) k (by simpa using hi)]
      have : n + 1 + k = n + (k + 1) := by omega
      rw [this]

lemma getD_map_lt {α β : Type} (f : α → β) (l : List α) {i : ℕ}
    (hi : i < l.length) (d : β) (d0 : α) :
    (l.map f).getD i d = f (l.getD i d0) := by
  rw [List.getD_eq_getElem _ _ (by simpa using hi),
    List.getD_eq_getElem _ _ hi, List.getElem_map]

lemma findIndexOf_some {target : ℕ × ℕ} {l : List (ℕ × ℕ)} {j : ℕ}
    (h : findIndexOf target l = some j) :
    j < l.length ∧ l.getD j (0, 0) = target := by
  induction l generalizing j with
  | nil => exact Option.noConfusion h
  | cons a t ih =>
    rw [findIndexOf] at h
    by_cases ha : a = target
    · rw [if_pos ha] at h
      cases h
      exact ⟨by simp, ha⟩
    · rw [if_neg ha] at h
      cases hf : findIndexOf target t with
      | none => rw [hf] at h; exact Option.noConfusion h
      | some k =>
        rw [hf] at h
        cases h
        rcases ih hf with ⟨h1, h2⟩
        exact ⟨by simpa using h1, by simpa using h2⟩

lemma findIndexOf_none {target : ℕ × ℕ} {l : List (ℕ × ℕ)}
    (h : findIndexOf target l = none) : target ∉ l := by
  induction l with
  | nil => simp
  | cons a t ih =>
    rw [findIndexOf] at h
    by_cases ha : a = target
    · rw [if_pos ha] at h; exact Option.noConfusion h
    · rw [if_neg ha] at h
      intro hmem
      rcases List.mem_cons.mp hmem with h1 | h1
      · exact ha h1.symm
      · exact ih (by cases hf : findIndexOf target t with
          | none => rfl
          | some k => rw [hf] at h; exact Option.noConfusion h) h1

lemma sum_map_sub {α : Type} (l : List α) (f g : α → ℚ) :
    (l.map fun a => f a - g a).sum = (l.map f).sum - (l.map g).sum := by
  induction l with
  | nil => simp
  | cons a t ih => simp [ih]; ring

lemma sum_map_eq_zero {α : Type} {l : List α} {f : α → ℚ}
    (h : ∀ a ∈ l, f a = 0) : (l.map f).sum = 0 := by
  induction l with
  | nil => simp
  | cons a t ih =>
    simp [h a (by simp), ih fun b hb => h b (by simp [hb])]

lemma sum_enumFrom_indicator (l : List (ℕ × ℕ)) (target : ℕ × ℕ) (f : ℕ → ℚ)
    (hnd : l.Nodup) (n : ℕ) :
    ((l.enumFrom n).map fun p => if p.2 = target then f p.1 else 0).sum =
      (match findIndexOf target l with
        | some j => f (n + j)
        | none => 0) := by
  induction l generalizing n with
  | nil => simp [findIndexOf]
  | cons a t ih =>
    rw [List.enumFrom_cons, findIndexOf]
    by_cases ha : a = target
    · rw [if_pos ha]
      have hnotmem : target ∉ t := by
        rw [← ha]; exact (List.nodup_cons.mp hnd).1
      have hz : ((t.enumFrom (n + 1)).map
          fun p => if p.2 = target then f p.1 else 0).sum = 0 :=
        sum_map_eq_zero fun p hp => by
          rw [if_neg fun hceq : p.2 = target =>
            hnotmem (hceq ▸ List.snd_mem_of_mem_enumFrom hp)]
      simp [ha, hz]
    · have ih' := ih (List.nodup_cons.mp hnd).2 (n + 1)
      simp only [List.map_cons, List.sum_cons, ha, if_false, ite_false,
        zero_add, ih']
      cases hf : findIndexOf target t with
      | none => rfl
      | some k =>
        show f (n + 1 + k) = f (n + (k + 1))
        have : n + 1 + k = n + (k + 1) := by omega
        rw [this]

/-- The pieces of a hand-level inclusion–exclusion coefficient: for a hand
`h` with `h.1 < h.2` and a target pair `c1 < c2`, reach times
`1 - [c1 ∈ h] - [c2 ∈ h]` equals the share-free indicator minus the
identical-hand indicator. -/
lemma coeff_split {h : ℕ × ℕ} {c1 c2 : ℕ} (hh : h.1 < h.2) (hc : c1 < c2)
    (q : ℚ) :
    q - ((if c1 = h.1 then q else 0) + (if c1 = h.2 then q else 0))
      - ((if c2 = h.1 then q else 0) + (if c2 = h.2 then q else 0)) =
      (if c1 ≠ h.1 ∧ c1 ≠ h.2 ∧ c2 ≠ h.1 ∧ c2 ≠ h.2 then q else 0) +
      (if h = (c1, c2) then -q else 0) := by
  obtain ⟨h1, h2⟩ := h
  simp only [Prod.mk.injEq] at hh hc ⊢
  split_ifs with a1 a2 a3 a4 a5 a6
  all_goals (try (exfalso; omega))
  all_goals ring

/-! ### C2: fold terminals -/

/-- The specification-side sum for a fold terminal: total opponent reach over
hands disjoint from both the board and the player's two cards. -/
def opp_reach_excluding (bm : ℕ) (opp : List (ℕ × ℕ)) (cfreach : List ℚ)
    (c1 c2 : ℕ) : ℚ :=
  (opp.enum.map fun p =>
    if (2 ^ p.2.1 ||| 2 ^ p.2.2) &&& bm = 0 ∧
        c1 ≠ p.2.1 ∧ c1 ≠ p.2.2 ∧ c2 ≠ p.2.1 ∧ c2 ≠ p.2.2 then
      cfreach.getD p.1 0
    else 0).sum

/-- The inclusion-exclusion identity of the fold branch: the prefix
quantities minus the per-card sums plus the same-hand correction equal the
naive sum over opponent hands disjoint from board and player cards. -/
lemma fold_incl_excl (bm : ℕ) (opp : List (ℕ × ℕ)) (cfreach : List ℚ)
    (c1 c2 : ℕ) (hOrd : ∀ h ∈ opp, h.1 < h.2) (hNodup : opp.Nodup)
    (hc : c1 < c2) (hdisj : (2 ^ c1 ||| 2 ^ c2) &&& bm = 0) :
    fold_cfreach_sum bm opp cfreach
      - fold_cfreach_minus bm opp cfreach c1
      - fold_cfreach_minus bm opp cfreach c2
      + (match findIndexOf (c1, c2) opp with
          | some j => cfreach.getD j 0
          | none => 0) =
    opp_reach_excluding bm opp cfreach c1 c2 := by
  unfold fold_cfreach_sum fold_cfreach_minus opp_reach_excluding
  rw [← sum_map_sub, ← sum_map_sub]
  have hpoint : ∀ p ∈ opp.enum,
      ((if (2 ^ p.2.1 ||| 2 ^ p.2.2) &&& bm = 0 then cfreach.getD p.1 0 else 0)
        - (if (2 ^ p.2.1 ||| 2 ^ p.2.2) &&& bm = 0 then
            (if c1 = p.2.1 then cfreach.getD p.1 0 else 0) +
            (if c1 = p.2.2 then cfreach.getD p.1 0 else 0) else 0))
        - (if (2 ^ p.2.1 ||| 2 ^ p.2.2) &&& bm = 0 then
            (if c2 = p.2.1 then cfreach.getD p.1 0 else 0) +
            (if c2 = p.2.2 then cfreach.getD p.1 0 else 0) else 0) =
      (if (2 ^ p.2.1 ||| 2 ^ p.2.2) &&& bm = 0 ∧
          c1 ≠ p.2.1 ∧ c1 ≠ p.2.2 ∧ c2 ≠ p.2.1 ∧ c2 ≠ p.2.2 then
        cfreach.getD p.1 0 else 0) +
      (if p.2 = (c1, c2) then -(cfreach.getD p.1 0) else 0) := by
    intro p hp
    have hmem : p.2 ∈ opp := List.snd_mem_of_mem_enumFrom hp
    have hpo := hOrd p.2 hmem
    by_cases hd : (2 ^ p.2.1 ||| 2 ^ p.2.2) &&& bm = 0
    · rw [if_pos hd, if_pos hd, if_pos hd]
      have := coeff_split hpo hc (cfreach.getD p.1 0)
      rw [this]
      congr 1
      by_cases hfree : c1 ≠ p.2.1 ∧ c1 ≠ p.2.2 ∧ c2 ≠ p.2.1 ∧ c2 ≠ p.2.2
      · rw [if_pos hfree, if_pos ⟨hd, hfree⟩]
      · rw [if_neg hfree, if_neg fun hq => hfree hq.2]
    · rw [if_neg hd, if_neg hd, if_neg hd]
      rw [if_neg fun hq : _ ∧ _ => hd hq.1,
        if_neg fun hq : p.2 = (c1, c2) => hd (by rw [hq]; exact hdisj)]
      ring
  rw [List.map_congr_left hpoint, List.sum_map_add]
  have hind := sum_enumFrom_indicator opp (c1, c2)
    (fun j => -(cfreach.getD j 0)) hNodup 0
  rw [show opp.enum = opp.enumFrom 0 from rfl, hind]
  cases hf : findIndexOf (c1, c2) opp <;> simp

/-- C2: at a fold terminal, for every player hand `(c1, c2)` disjoint from
the board, `evaluate` writes `payoff * num_combinations_inv * S` where `S`
is the opponent reach over hands disjoint from the board and from
`{c1, c2}`, and the inclusion-exclusion expression of the code equals `S`. -/
theorem evaluate_fold_terminal (g : PostFlopGameE) (node : PostFlopNodeE)
    (player : ℕ) (cfreach result : List ℚ) (i c1 c2 : ℕ)
    (hfold : node.player &&& PLAYER_FOLD_FLAG = PLAYER_FOLD_FLAG)
    (hOrd : ∀ h ∈ g.cards (player ^^^ 1), h.1 < h.2)
    (hNodup : (g.cards (player ^^^ 1)).Nodup)
    (hsame : g.sameHand player =
      same_hand_index_of (g.cards player) (g.cards (player ^^^ 1)))
    (hres : result.length = (g.cards player).length)
    (hi : i < (g.cards player).length)
    (hhand : (g.cards player).getD i (0, 0) = (c1, c2))
    (hc : c1 < c2)
    (hdisj : (2 ^ c1 ||| 2 ^ c2) &&& board_mask_of g node = 0) :
    (evaluate g result node player cfreach).getD i 0 =
      ((if node.player &&& PLAYER_MASK = player then -node.amount
        else g.initialPot + node.amount : ℤ) : ℚ) *
        g.num_combinations_inv *
        opp_reach_excluding (board_mask_of g node) (g.cards (player ^^^ 1))
          cfreach c1 c2 ∧
    fold_cfreach_sum (board_mask_of g node) (g.cards (player ^^^ 1)) cfreach
      - fold_cfreach_minus (board_mask_of g node) (g.cards (player ^^^ 1))
          cfreach c1
      - fold_cfreach_minus (board_mask_of g node) (g.cards (player ^^^ 1))
          cfreach c2
      + (((g.sameHand player).getD i none).map
          (fun j => cfreach.getD j 0)).getD 0 =
      opp_reach_excluding (board_mask_of g node) (g.cards (player ^^^ 1))
        cfreach c1 c2 := by
  have hsameAt : (g.sameHand player).getD i none =
      findIndexOf (c1, c2) (g.cards (player ^^^ 1)) := by
    rw [hsame]
    unfold same_hand_index_of
    rw [getD_map_lt _ _ hi none (0, 0), hhand]
  have hmatch : (((g.sameHand player).getD i none).map
      (fun j => cfreach.getD j 0)).getD 0 =
      (match findIndexOf (c1, c2) (g.cards (player ^^^ 1)) with
        | some j => cfreach.getD j 0
        | none => 0) := by
    rw [hsameAt]
    cases findIndexOf (c1, c2) (g.cards (player ^^^ 1)) <;> rfl
  have hkey := fold_incl_excl (board_mask_of g node) (g.cards (player ^^^ 1))
    cfreach c1 c2 hOrd hNodup hc hdisj
  constructor
  · rw [evaluate, if_pos hfold]
    unfold evaluate_fold_values
    rw [mapIdxFrom_getD _ result 0 i (by omega) 0 0]
    simp only [zero_add, hhand]
    rw [if_pos hdisj, hmatch]
    have hexpand : fold_cfreach_sum (board_mask_of g node)
        (g.cards (player ^^^ 1)) cfreach
        - (fold_cfreach_minus (board_mask_of g node) (g.cards (player ^^^ 1))
            cfreach c1 +
           fold_cfreach_minus (board_mask_of g node) (g.cards (player ^^^ 1))
            cfreach c2)
        + (match findIndexOf (c1, c2) (g.cards (player ^^^ 1)) with
            | some j => cfreach.getD j 0
            | none => 0) =
        opp_reach_excluding (board_mask_of g node) (g.cards (player ^^^ 1))
          cfreach c1 c2 := by
      rw [← hkey]; ring
    rw [hexpand]
  · rw [hmatch]
    exact hkey

/-- Concrete game fixture: flop `2 3 4`, pot 10, one OOP hand `(0,1)`,
IP hands `(0,1)` and `(5,6)`. -/
def gW : PostFlopGameE :=
  ⟨2, 3, 4, 10, 1, [(0, 1)], [(0, 1), (5, 6)], [some 0], [some 0, none],
    fun _ _ => ⟨[], 0, [], []⟩⟩

/-- Concrete fold node: IP folded before the turn, amount 5. -/
def nodeW : PostFlopNodeE := ⟨0x301, 0xff, 0xff, 5⟩

/-- Witness for C2 at the concrete fixture. -/
theorem evaluate_fold_terminal_witness :
    (nodeW.player &&& PLAYER_FOLD_FLAG = PLAYER_FOLD_FLAG ∧
     (0 : ℕ) < 1 ∧ (2 ^ 0 ||| 2 ^ 1) &&& board_mask_of gW nodeW = 0) ∧
    ((evaluate gW [0] nodeW 0 [1, 1]).getD 0 0 =
      ((if nodeW.player &&& PLAYER_MASK = 0 then -nodeW.amount
        else gW.initialPot + nodeW.amount : ℤ) : ℚ) *
        gW.num_combinations_inv *
        opp_reach_excluding (board_mask_of gW nodeW) (gW.cards (0 ^^^ 1))
          [1, 1] 0 1 ∧
     fold_cfreach_sum (board_mask_of gW nodeW) (gW.cards (0 ^^^ 1)) [1, 1]
      - fold_cfreach_minus (board_mask_of gW nodeW) (gW.cards (0 ^^^ 1))
          [1, 1] 0
      - fold_cfreach_minus (board_mask_of gW nodeW) (gW.cards (0 ^^^ 1))
          [1, 1] 1
      + (((gW.sameHand 0).getD 0 none).map
          (fun j => ([1, 1] : List ℚ).getD j 0)).getD 0 =
      opp_reach_excluding (board_mask_of gW nodeW) (gW.cards (0 ^^^ 1))
        [1, 1] 0 1) :=
  ⟨⟨by decide, by decide, by decide⟩,
   evaluate_fold_terminal gW nodeW 0 [1, 1] [0] 0 0 1 (by decide) (by decide)
     (by decide) (by decide) (by decide) (by decide) (by decide) (by decide)
     (by decide)⟩

/-! ### C3: entries of hands conflicting with the board -/

/-- C3 (amended): `evaluate` leaves `result[i]` unchanged for every hand
that shares a card with the board, in both the fold and the showdown
branches; in particular those entries are `0` whenever the caller passes a
zero-initialized buffer.  (The claim as frozen — that such entries are `0`
after the call regardless of the incoming buffer — fails, see the
counterexample: `evaluate` never writes them.) -/
theorem evaluate_conflicting_entry_unchanged (g : PostFlopGameE)
    (node : PostFlopNodeE) (player : ℕ) (cfreach result : List ℚ)
    (i c1 c2 : ℕ) (hi : i < result.length)
    (hhand : (g.cards player).getD i (0, 0) = (c1, c2))
    (hconf : (2 ^ c1 ||| 2 ^ c2) &&& board_mask_of g node ≠ 0) :
    (evaluate g result node player cfreach).getD i 0 = result.getD i 0 := by
  rw [evaluate]
  split_ifs with hf
  · unfold evaluate_fold_values
    rw [mapIdxFrom_getD _ result 0 i hi 0 0]
    simp only [zero_add, hhand]
    rw [if_neg hconf]
  · unfold evaluate_showdown_values
    rw [mapIdxFrom_getD _ result 0 i hi 0 0]
    simp only [zero_add, hhand]
    rw [if_neg hconf]

/-- Counterexample to C3 as frozen: at a fold terminal whose board contains
card 0, the OOP hand `(0,1)` conflicts with the board, and after `evaluate`
on an incoming buffer `[5]` the entry is `5`, not `0`. -/
theorem evaluate_conflicting_entry_counterexample :
    ¬ ((evaluate gW [5] ⟨0x300, 0, 1, 0⟩ 0 [1, 1]).getD 0 0 = 0) := by
  decide

/-- Witness for C3 (amended) at the same concrete input. -/
theorem evaluate_conflicting_entry_witness :
    ((0 : ℕ) < 1 ∧
     (2 ^ 0 ||| 2 ^ 1) &&& board_mask_of gW ⟨0x300, 0, 1, 0⟩ ≠ 0) ∧
    (evaluate gW [5] ⟨0x300, 0, 1, 0⟩ 0 [1, 1]).getD 0 0 =
      ([5] : List ℚ).getD 0 0 :=
  ⟨⟨by decide, by decide⟩,
   evaluate_conflicting_entry_unchanged gW ⟨0x300, 0, 1, 0⟩ 0 [1, 1] [5] 0 0 1
     (by decide) (by decide) (by decide)⟩

/-! ## Hand-strength precompute (`init_hand_strength`) -/

/-- Rust's `slice::partition_point`: the number of leading elements
satisfying the predicate (every use below is on a partitioned list). -/
def partitionPoint {α : Type} (p : α → Bool) (l : List α) : ℕ :=
  (l.takeWhile p).length

/-- The order `sort_unstable` uses on `(score, index)` tuples:
lexicographic on `(u32, usize)`. -/
def pairLe (a b : ℕ × ℕ) : Prop :=
  a.1 < b.1 ∨ (a.1 = b.1 ∧ a.2 ≤ b.2)

instance : DecidableRel pairLe := fun a b => by
  unfold pairLe; exact inferInstance

instance : IsTotal (ℕ × ℕ) pairLe :=
  ⟨fun a b => by unfold pairLe; omega⟩

instance : IsTrans (ℕ × ℕ) pairLe :=
  ⟨fun a b c hab hbc => by unfold pairLe at *; omega⟩

/-- The score list of one player on a fixed five-card board: 0 for hands
sharing a card with the board, the evaluator score otherwise. -/
def strength_list (bm : ℕ) (ev : ℕ × ℕ → ℕ) (cards : List (ℕ × ℕ)) :
    List ℕ :=
  cards.map fun h => if bm.testBit h.1 || bm.testBit h.2 then 0 else ev h

/-- `init_hand_strength` for one `(turn, river)` board and one player:
opponent `(score, index)` pairs sorted ascending (`sort_unstable` embedded
as `insertionSort`, identical on the duplicate-free keys), the exclusion
partition point past zero scores, and the per-hand win and tie partition
points.  The evaluator of `holdem_hand_evaluator` is external to the
repository and is kept abstract as `ev`. -/
def sorted_pairs (bm : ℕ) (ev : ℕ × ℕ → ℕ)
    (oppCards : List (ℕ × ℕ)) : List (ℕ × ℕ) :=
  ((strength_list bm ev oppCards).enum.map
      fun p => (p.2, p.1)).insertionSort pairLe

def init_hand_strength_for (bm : ℕ) (ev : ℕ × ℕ → ℕ)
    (playerCards oppCards : List (ℕ × ℕ)) : HandStrengthE :=
  let strengthP := strength_list bm ev playerCards
  let sorted := sorted_pairs bm ev oppCards
  { opponent_increasing_index := sorted.map (fun q => q.2)
    exclude_threshold := partitionPoint (fun q => decide (q.1 = 0)) sorted
    win_threshold := strengthP.map fun v =>
      partitionPoint (fun q => decide (q.1 < v)) sorted
    tie_threshold := strengthP.map fun v =>
      partitionPoint (fun q => decide (q.1 ≤ v)) sorted }

/-- `takeWhile` length is monotone under pointwise predicate implication. -/
lemma length_takeWhile_mono {α : Type} {p q : α → Bool}
    (hpq : ∀ a, p a = true → q a = true) (l : List α) :
    (l.takeWhile p).length ≤ (l.takeWhile q).length := by
  induction l with
  | nil => simp
  | cons a t ih =>
    by_cases hp : p a
    · rw [List.takeWhile_cons_of_pos hp, List.takeWhile_cons_of_pos (hpq a hp)]
      simpa using ih
    · simp [List.takeWhile_cons_of_neg hp]

/-- C4 (amended): for every board and player, `tie_threshold[i] ≥
win_threshold[i]` holds for all `i`, and `win_threshold[i] ≥
exclude_threshold` holds for every hand `i` that does not conflict with the
board, given the evaluator contract that valid scores are positive.  (As
frozen — for every index, including hands conflicting with the board — the
second inequality fails, see the counterexample.) -/
theorem hand_strength_thresholds (bm : ℕ) (ev : ℕ × ℕ → ℕ)
    (playerCards oppCards : List (ℕ × ℕ)) :
    (∀ i : ℕ,
      (init_hand_strength_for bm ev playerCards oppCards).win_threshold.getD
        i 0 ≤
      (init_hand_strength_for bm ev playerCards oppCards).tie_threshold.getD
        i 0) ∧
    (∀ i : ℕ, i < playerCards.length →
      bm.testBit (playerCards.getD i (0, 0)).1 = false →
      bm.testBit (playerCards.getD i (0, 0)).2 = false →
      0 < ev (playerCards.getD i (0, 0)) →
      (init_hand_strength_for bm ev playerCards oppCards).exclude_threshold ≤
      (init_hand_strength_for bm ev playerCards oppCards).win_threshold.getD
        i 0) := by
  have hlen : (strength_list bm ev playerCards).length = playerCards.length :=
    List.length_map _ _
  constructor
  · intro i
    by_cases hi : i < playerCards.length
    · unfold init_hand_strength_for
      simp only
      rw [getD_map_lt _ _ (by omega) 0 0, getD_map_lt _ _ (by omega) 0 0]
      exact length_takeWhile_mono
        (fun a ha => by
          simp only [decide_eq_true_eq] at ha ⊢
          omega) _
    · unfold init_hand_strength_for
      simp only
      rw [List.getD_eq_default _ _ (by simp; omega),
        List.getD_eq_default _ _ (by simp; omega)]
  · intro i hi ht1 ht2 hev
    unfold init_hand_strength_for
    simp only
    rw [getD_map_lt _ _ (by omega) 0 0]
    have hv : (strength_list bm ev playerCards).getD i 0 =
        ev (playerCards.getD i (0, 0)) := by
      unfold strength_list
      rw [getD_map_lt _ _ hi 0 (0, 0), ht1, ht2]
      rfl
    refine length_takeWhile_mono (fun a ha => ?_) _
    simp only [decide_eq_true_eq] at ha ⊢
    omega

/-- Counterexample to C4 as frozen: board `{0, 10, 20, 30, 40}` (flop
`10 20 30`, turn `0`, river `40`), player hand `(0, 1)` (conflicting, score
0) and opponent hand `(0, 2)` (conflicting, score 0): `exclude_threshold =
1` but `win_threshold[0] = 0`. -/
theorem hand_strength_thresholds_counterexample :
    ¬ ((init_hand_strength_for
        (2 ^ 10 ||| 2 ^ 20 ||| 2 ^ 30 ||| 2 ^ 0 ||| 2 ^ 40)
        (fun h => h.1 + h.2 + 1) [(0, 1)] [(0, 2)]).exclude_threshold ≤
      (init_hand_strength_for
        (2 ^ 10 ||| 2 ^ 20 ||| 2 ^ 30 ||| 2 ^ 0 ||| 2 ^ 40)
        (fun h => h.1 + h.2 + 1) [(0, 1)] [(0, 2)]).win_threshold.getD 0 0) := by
  decide

/-- Witness for C4 (amended) on a non-conflicting hand. -/
theorem hand_strength_thresholds_witness :
    ((0 : ℕ) < 1 ∧
     (2 ^ 10 ||| 2 ^ 20 ||| 2 ^ 30 ||| (2 : ℕ) ^ 0 ||| 2 ^ 40).testBit 1
        = false ∧
     (2 ^ 10 ||| 2 ^ 20 ||| 2 ^ 30 ||| (2 : ℕ) ^ 0 ||| 2 ^ 40).testBit 2
        = false ∧
     0 < ((1, 2).1 + (1, 2).2 + 1 : ℕ)) ∧
    ((init_hand_strength_for
        (2 ^ 10 ||| 2 ^ 20 ||| 2 ^ 30 ||| 2 ^ 0 ||| 2 ^ 40)
        (fun h => h.1 + h.2 + 1) [(1, 2)] [(0, 2)]).win_threshold.getD 0 0 ≤
      (init_hand_strength_for
        (2 ^ 10 ||| 2 ^ 20 ||| 2 ^ 30 ||| 2 ^ 0 ||| 2 ^ 40)
        (fun h => h.1 + h.2 + 1) [(1, 2)] [(0, 2)]).tie_threshold.getD 0 0 ∧
     (init_hand_strength_for
        (2 ^ 10 ||| 2 ^ 20 ||| 2 ^ 30 ||| 2 ^ 0 ||| 2 ^ 40)
        (fun h => h.1 + h.2 + 1) [(1, 2)] [(0, 2)]).exclude_threshold ≤
      (init_hand_strength_for
        (2 ^ 10 ||| 2 ^ 20 ||| 2 ^ 30 ||| 2 ^ 0 ||| 2 ^ 40)
        (fun h => h.1 + h.2 + 1) [(1, 2)] [(0, 2)]).win_threshold.getD 0 0) :=
  ⟨⟨by decide, by decide, by decide, by decide⟩,
   ⟨(hand_strength_thresholds _ (fun h => h.1 + h.2 + 1) [(1, 2)] [(0, 2)]).1 0,
    (hand_strength_thresholds
        (2 ^ 10 ||| 2 ^ 20 ||| 2 ^ 30 ||| 2 ^ 0 ||| 2 ^ 40)
        (fun h => h.1 + h.2 + 1) [(1, 2)] [(0, 2)]).2 0
      (by decide) (by decide) (by decide) (by decide)⟩⟩

/-! ### C1: showdown terminals.

The machinery below relates the prefix-sum band queries of the showdown
branch, taken between two partition points of the strength-sorted opponent
order, to plain sums over the band, and those to sums filtered by score. -/

/-- The specification-side band sum: the opponent reach over sorted
positions `[a, b)` restricted to hands sharing no card with the player's
pair. -/
def sd_band_no_share (cfreach : List ℚ) (oppCards : List (ℕ × ℕ))
    (sIdx : List ℕ) (a b c1 c2 : ℕ) : ℚ :=
  ((((sIdx.drop a).take (b - a)).filter fun j =>
      decide (c1 ≠ (oppCards.getD j (0, 0)).1 ∧ c1 ≠ (oppCards.getD j (0, 0)).2 ∧
        c2 ≠ (oppCards.getD j (0, 0)).1 ∧ c2 ≠ (oppCards.getD j (0, 0)).2)).map
    fun j => cfreach.getD j 0).sum

lemma take_partitionPoint {α : Type} (p : α → Bool) (l : List α) :
    l.take (partitionPoint p l) = l.takeWhile p := by
  induction l with
  | nil => rfl
  | cons a t ih =>
    unfold partitionPoint at ih ⊢
    by_cases hpa : p a
    · rw [List.takeWhile_cons_of_pos hpa, List.length_cons,
        List.take_succ_cons, ih]
    · rw [List.takeWhile_cons_of_neg (by simpa using hpa)]
      rfl

lemma drop_partitionPoint {α : Type} (p : α → Bool) (l : List α) :
    l.drop (partitionPoint p l) = l.dropWhile p := by
  induction l with
  | nil => rfl
  | cons a t ih =>
    unfold partitionPoint at ih ⊢
    by_cases hpa : p a
    · rw [List.takeWhile_cons_of_pos hpa, List.length_cons,
        List.drop_succ_cons, ih, List.dropWhile_cons_of_pos hpa]
    · rw [List.takeWhile_cons_of_neg (by simpa using hpa),
        List.dropWhile_cons_of_neg (by simpa using hpa)]
      rfl

/-- On a list sorted by first component, `takeWhile` of a predicate
downward-closed along the first component is `filter`. -/
lemma sorted_takeWhile_eq_filter {s : List (ℕ × ℕ)}
    (hs : s.Pairwise fun a b => a.1 ≤ b.1) {Pb : ℕ × ℕ → Bool}
    (hP : ∀ a b : ℕ × ℕ, a.1 ≤ b.1 → Pb b = true → Pb a = true) :
    s.takeWhile Pb = s.filter Pb := by
  induction s with
  | nil => rfl
  | cons a t ih =>
    rcases List.pairwise_cons.mp hs with ⟨ha, ht⟩
    by_cases hpa : Pb a
    · rw [List.takeWhile_cons_of_pos hpa, List.filter_cons_of_pos hpa, ih ht]
    · rw [List.takeWhile_cons_of_neg (by simpa using hpa),
        List.filter_cons_of_neg (by simpa using hpa)]
      exact (List.filter_eq_nil_iff.mpr fun b hb => fun hpb =>
        hpa (hP a b (ha b hb) hpb)).symm

/-- On a list sorted by first component, `dropWhile` of a predicate
downward-closed along the first component is `filter` of its negation. -/
lemma sorted_dropWhile_eq_filter {s : List (ℕ × ℕ)}
    (hs : s.Pairwise fun a b => a.1 ≤ b.1) {Pb : ℕ × ℕ → Bool}
    (hP : ∀ a b : ℕ × ℕ, a.1 ≤ b.1 → Pb b = true → Pb a = true) :
    s.dropWhile Pb = s.filter (fun q => !Pb q) := by
  induction s with
  | nil => rfl
  | cons a t ih =>
    rcases List.pairwise_cons.mp hs with ⟨ha, ht⟩
    by_cases hpa : Pb a
    · rw [List.dropWhile_cons_of_pos hpa,
        List.filter_cons_of_neg (by simpa using hpa), ih ht]
    · rw [List.dropWhile_cons_of_neg (by simpa using hpa),
        List.filter_cons_of_pos (by simpa using hpa)]
      refine congrArg _ (List.filter_eq_self.mpr fun b hb => ?_).symm
      simp only [Bool.not_eq_true']
      exact Bool.eq_false_iff.mpr fun hpb => hpa (hP a b (ha b hb) hpb)

/-- `takeWhile` of a stronger predicate inside `takeWhile` of a weaker
one. -/
lemma takeWhile_imp_takeWhile (s : List (ℕ × ℕ)) {Pb Qb : ℕ × ℕ → Bool}
    (hPQ : ∀ q, Pb q = true → Qb q = true) :
    (s.takeWhile Qb).takeWhile Pb = s.takeWhile Pb := by
  induction s with
  | nil => rfl
  | cons a t ih =>
    by_cases hqa : Qb a
    · rw [List.takeWhile_cons_of_pos hqa]
      by_cases hpa : Pb a
      · rw [List.takeWhile_cons_of_pos hpa, List.takeWhile_cons_of_pos hpa, ih]
      · rw [List.takeWhile_cons_of_neg (by simpa using hpa),
          List.takeWhile_cons_of_neg (by simpa using hpa)]
    · rw [List.takeWhile_cons_of_neg (by simpa using hqa),
        List.takeWhile_cons_of_neg (by
          simpa using fun hpa => hqa (hPQ a hpa))]
      rfl

/-- Band decomposition on a sorted list: the prefix at the `Qb` partition
point splits as the prefix at the `Pb` partition point followed by the
`Qb ∧ ¬Pb` filter, and the positional band slice equals that filter. -/
lemma band_decomp {s : List (ℕ × ℕ)}
    (hs : s.Pairwise fun a b => a.1 ≤ b.1) {Pb Qb : ℕ × ℕ → Bool}
    (hPQ : ∀ q, Pb q = true → Qb q = true)
    (hPmono : ∀ a b : ℕ × ℕ, a.1 ≤ b.1 → Pb b = true → Pb a = true)
    (hQmono : ∀ a b : ℕ × ℕ, a.1 ≤ b.1 → Qb b = true → Qb a = true) :
    s.take (partitionPoint Qb s) =
      s.take (partitionPoint Pb s) ++ s.filter (fun q => Qb q && !Pb q) ∧
    (s.drop (partitionPoint Pb s)).take
        (partitionPoint Qb s - partitionPoint Pb s) =
      s.filter (fun q => Qb q && !Pb q) := by
  have hband : (s.takeWhile Qb).dropWhile Pb =
      s.filter (fun q => Qb q && !Pb q) := by
    rw [sorted_dropWhile_eq_filter
        (List.Pairwise.sublist (List.takeWhile_sublist _) hs) hPmono,
      sorted_takeWhile_eq_filter hs hQmono, List.filter_filter]
    refine congrArg (fun p => List.filter p s) (funext fun q => ?_)
    cases hq : Qb q <;> cases hp : Pb q <;> rfl
  have hsplit : s.takeWhile Qb =
      s.takeWhile Pb ++ s.filter (fun q => Qb q && !Pb q) := by
    have haux : (s.takeWhile Qb).takeWhile Pb ++
        (s.takeWhile Qb).dropWhile Pb = s.takeWhile Qb :=
      List.takeWhile_append_dropWhile ..
    conv_lhs => rw [← haux]
    rw [takeWhile_imp_takeWhile s hPQ, hband]
  have hdw : s.dropWhile Pb =
      s.filter (fun q => Qb q && !Pb q) ++ s.dropWhile Qb := by
    have h1 : s.takeWhile Pb ++ s.dropWhile Pb = s :=
      List.takeWhile_append_dropWhile ..
    have h2 : s.takeWhile Pb ++
        (s.filter (fun q => Qb q && !Pb q) ++ s.dropWhile Qb) = s := by
      rw [← List.append_assoc, ← hsplit, List.takeWhile_append_dropWhile]
    exact List.append_cancel_left (h1.trans h2.symm)
  have hlenq : partitionPoint Qb s =
      partitionPoint Pb s + (s.filter (fun q => Qb q && !Pb q)).length := by
    unfold partitionPoint
    rw [hsplit, List.length_append]
  constructor
  · rw [take_partitionPoint, take_partitionPoint, hsplit]
  · rw [drop_partitionPoint, hdw, hlenq]
    have harith : partitionPoint Pb s +
        (s.filter (fun q => Qb q && !Pb q)).length - partitionPoint Pb s =
        (s.filter (fun q => Qb q && !Pb q)).length := by omega
    rw [harith, List.take_left]

/-- The partition point of the constant-true predicate is the length. -/
lemma partitionPoint_true {α : Type} (s : List α) :
    partitionPoint (fun _ => true) s = s.length := by
  unfold partitionPoint
  rw [List.takeWhile_eq_self_iff.mpr fun a _ => rfl]

lemma sum_filter_ite {α : Type} (p : α → Bool) (l : List α) (f : α → ℚ) :
    ((l.filter p).map f).sum = (l.map fun a => if p a then f a else 0).sum := by
  induction l with
  | nil => rfl
  | cons a t ih =>
    by_cases hpa : p a
    · rw [List.filter_cons_of_pos hpa, List.map_cons, List.sum_cons, ih,
        List.map_cons, List.sum_cons, if_pos hpa]
    · rw [List.filter_cons_of_neg (by simpa using hpa), ih, List.map_cons,
        List.sum_cons, if_neg (by simpa using hpa), zero_add]

lemma sd_sum_map_snd (cfreach : List ℚ) (s : List (ℕ × ℕ)) (k : ℕ) :
    sd_cfreach_sum cfreach (s.map fun q => q.2) k =
      ((s.take k).map fun q => cfreach.getD q.2 0).sum := by
  unfold sd_cfreach_sum
  rw [← List.map_take, List.map_map]
  rfl

lemma sd_minus_map_snd (cfreach : List ℚ) (oppCards : List (ℕ × ℕ))
    (s : List (ℕ × ℕ)) (k c : ℕ) :
    sd_cfreach_minus cfreach oppCards (s.map fun q => q.2) k c =
      ((s.take k).map fun q =>
        (if c = (oppCards.getD q.2 (0, 0)).1 then cfreach.getD q.2 0 else 0) +
        (if c = (oppCards.getD q.2 (0, 0)).2 then cfreach.getD q.2 0
         else 0)).sum := by
  unfold sd_cfreach_minus
  rw [← List.map_take, List.map_map]
  rfl

/-- A band query between two partition points on a strength-sorted list
equals the share-free band sum plus an identical-hand compensation term. -/
lemma sd_band_split (oppCards : List (ℕ × ℕ)) (cfreach : List ℚ)
    (c1 c2 : ℕ) (s : List (ℕ × ℕ))
    (hs : s.Pairwise fun a b => a.1 ≤ b.1)
    (hsnd : ∀ q ∈ s, q.2 < oppCards.length)
    (hOrd : ∀ h ∈ oppCards, h.1 < h.2) (hc : c1 < c2)
    {Pb Qb : ℕ × ℕ → Bool}
    (hPQ : ∀ q, Pb q = true → Qb q = true)
    (hPmono : ∀ a b : ℕ × ℕ, a.1 ≤ b.1 → Pb b = true → Pb a = true)
    (hQmono : ∀ a b : ℕ × ℕ, a.1 ≤ b.1 → Qb b = true → Qb a = true) :
    sd_band_query cfreach oppCards (s.map fun q => q.2)
        (partitionPoint Pb s) (partitionPoint Qb s) c1 c2 =
      sd_band_no_share cfreach oppCards (s.map fun q => q.2)
        (partitionPoint Pb s) (partitionPoint Qb s) c1 c2 +
      ((s.filter fun q => Qb q && !Pb q).map fun q =>
        if oppCards.getD q.2 (0, 0) = (c1, c2) then -(cfreach.getD q.2 0)
        else 0).sum := by
  obtain ⟨hdec1, hdec2⟩ := band_decomp hs hPQ hPmono hQmono
  have hquery : sd_band_query cfreach oppCards (s.map fun q => q.2)
      (partitionPoint Pb s) (partitionPoint Qb s) c1 c2 =
      ((s.filter fun q => Qb q && !Pb q).map fun q =>
        cfreach.getD q.2 0
        - ((if c1 = (oppCards.getD q.2 (0, 0)).1 then cfreach.getD q.2 0
            else 0) +
           (if c1 = (oppCards.getD q.2 (0, 0)).2 then cfreach.getD q.2 0
            else 0))
        - ((if c2 = (oppCards.getD q.2 (0, 0)).1 then cfreach.getD q.2 0
            else 0) +
           (if c2 = (oppCards.getD q.2 (0, 0)).2 then cfreach.getD q.2 0
            else 0))).sum := by
    unfold sd_band_query
    rw [sd_sum_map_snd, sd_sum_map_snd, sd_minus_map_snd, sd_minus_map_snd,
      sd_minus_map_snd, sd_minus_map_snd, hdec1, List.map_append,
      List.sum_append, List.map_append, List.sum_append, List.map_append,
      List.sum_append]
    rw [sum_map_sub, sum_map_sub]
    ring
  have hshare : sd_band_no_share cfreach oppCards (s.map fun q => q.2)
      (partitionPoint Pb s) (partitionPoint Qb s) c1 c2 =
      ((s.filter fun q => Qb q && !Pb q).map fun q =>
        if c1 ≠ (oppCards.getD q.2 (0, 0)).1 ∧
            c1 ≠ (oppCards.getD q.2 (0, 0)).2 ∧
            c2 ≠ (oppCards.getD q.2 (0, 0)).1 ∧
            c2 ≠ (oppCards.getD q.2 (0, 0)).2 then
          cfreach.getD q.2 0
        else 0).sum := by
    unfold sd_band_no_share
    rw [← List.map_drop, ← List.map_take, hdec2, List.filter_map,
      List.map_map, sum_filter_ite]
    refine congrArg List.sum (List.map_congr_left fun q hq => ?_)
    simp only [Function.comp_apply, decide_eq_true_eq]
  rw [hquery, hshare, ← List.sum_map_add]
  refine congrArg List.sum (List.map_congr_left fun q hq => ?_)
  have hqs : q ∈ s := List.mem_of_mem_filter hq
  have hmem : oppCards.getD q.2 (0, 0) ∈ oppCards := by
    rw [List.getD_eq_getElem _ _ (hsnd q hqs)]
    exact List.getElem_mem _
  exact coeff_split (hOrd _ hmem) hc (cfreach.getD q.2 0)

/-- Elements of the sorted `(score, index)` list carry a valid opponent
index and its score. -/
lemma mem_sorted_pairs {strengthO : List ℕ} {q : ℕ × ℕ}
    (hq : q ∈ (strengthO.enum.map fun p => (p.2, p.1)).insertionSort pairLe) :
    q.2 < strengthO.length ∧ q.1 = strengthO.getD q.2 0 := by
  have hq' : q ∈ strengthO.enum.map fun p => (p.2, p.1) :=
    (List.perm_insertionSort pairLe _).mem_iff.mp hq
  rcases List.mem_map.mp hq' with ⟨p, hp, rfl⟩
  obtain ⟨i, x⟩ := p
  rcases List.mem_enum hp with ⟨hi, hx⟩
  exact ⟨hi, by rw [List.getD_eq_getElem _ _ hi]; exact hx⟩

/-- The sorted `(score, index)` list is weakly increasing in the score. -/
lemma sorted_pairs_pairwise (pairs : List (ℕ × ℕ)) :
    (pairs.insertionSort pairLe).Pairwise fun a b => a.1 ≤ b.1 := by
  have hsorted := List.sorted_insertionSort pairLe pairs
  exact hsorted.imp fun hab => by
    rcases hab with h | ⟨h, _⟩
    · omega
    · omega

/-- The score carried at position `q` of the sorted list, when the opponent
hand there is exactly the player's pair, is the evaluator score of that
pair. -/
lemma score_of_identical {bm : ℕ} {ev : ℕ × ℕ → ℕ} {oppCards : List (ℕ × ℕ)}
    {q : ℕ × ℕ} (hq : q ∈ sorted_pairs bm ev oppCards) {c1 c2 : ℕ}
    (htb1 : bm.testBit c1 = false) (htb2 : bm.testBit c2 = false)
    (heq : oppCards.getD q.2 (0, 0) = (c1, c2)) : q.1 = ev (c1, c2) := by
  obtain ⟨hlt, hval⟩ := mem_sorted_pairs hq
  have hlen : (strength_list bm ev oppCards).length = oppCards.length :=
    List.length_map _ _
  rw [hval]
  unfold strength_list
  rw [getD_map_lt _ _ (by omega) 0 (0, 0), heq]
  simp [htb1, htb2]

/-- A band that provably excludes the identical hand: the band query equals
the share-free band sum. -/
lemma sd_band_eq_of_no_identical (bm : ℕ) (ev : ℕ × ℕ → ℕ)
    (oppCards : List (ℕ × ℕ)) (cfreach : List ℚ) (c1 c2 : ℕ)
    (hOrd : ∀ h ∈ oppCards, h.1 < h.2) (hc : c1 < c2)
    (htb1 : bm.testBit c1 = false) (htb2 : bm.testBit c2 = false)
    {Pb Qb : ℕ × ℕ → Bool}
    (hPQ : ∀ q, Pb q = true → Qb q = true)
    (hPmono : ∀ a b : ℕ × ℕ, a.1 ≤ b.1 → Pb b = true → Pb a = true)
    (hQmono : ∀ a b : ℕ × ℕ, a.1 ≤ b.1 → Qb b = true → Qb a = true)
    (hnot : ∀ n2 : ℕ, Qb (ev (c1, c2), n2) = true →
      Pb (ev (c1, c2), n2) = true) :
    sd_band_query cfreach oppCards
        ((sorted_pairs bm ev oppCards).map fun q => q.2)
        (partitionPoint Pb (sorted_pairs bm ev oppCards))
        (partitionPoint Qb (sorted_pairs bm ev oppCards)) c1 c2 =
      sd_band_no_share cfreach oppCards
        ((sorted_pairs bm ev oppCards).map fun q => q.2)
        (partitionPoint Pb (sorted_pairs bm ev oppCards))
        (partitionPoint Qb (sorted_pairs bm ev oppCards)) c1 c2 := by
  rw [sd_band_split oppCards cfreach c1 c2 (sorted_pairs bm ev oppCards)
    (sorted_pairs_pairwise _)
    (fun q hq => by
      have := (mem_sorted_pairs hq).1
      have hlen : (strength_list bm ev oppCards).length = oppCards.length :=
        List.length_map _ _
      omega)
    hOrd hc hPQ hPmono hQmono]
  have hzero : ((List.filter (fun q => Qb q && !Pb q)
      (sorted_pairs bm ev oppCards)).map fun q =>
        if oppCards.getD q.2 (0, 0) = (c1, c2) then -(cfreach.getD q.2 0)
        else 0).sum = 0 := by
    refine sum_map_eq_zero fun q hq => ?_
    obtain ⟨hqs, hband⟩ := List.mem_filter.mp hq
    by_cases heq : oppCards.getD q.2 (0, 0) = (c1, c2)
    · exfalso
      have hscore := score_of_identical hqs htb1 htb2 heq
      obtain ⟨q1, q2⟩ := q
      simp only at hscore
      subst hscore
      rw [Bool.and_eq_true] at hband
      obtain ⟨hQ, hP⟩ := hband
      rw [hnot q2 hQ] at hP
      exact Bool.noConfusion hP
    · rw [if_neg heq]
  rw [hzero, add_zero]

/-- The tie band: the band query between the win and tie partition points
plus the same-hand correction equals the share-free tie band sum. -/
lemma sd_tie_band_eq (bm : ℕ) (ev : ℕ × ℕ → ℕ) (oppCards : List (ℕ × ℕ))
    (cfreach : List ℚ) (c1 c2 : ℕ)
    (hOrd : ∀ h ∈ oppCards, h.1 < h.2) (hNodup : oppCards.Nodup)
    (hc : c1 < c2)
    (htb1 : bm.testBit c1 = false) (htb2 : bm.testBit c2 = false) :
    sd_band_query cfreach oppCards
        ((sorted_pairs bm ev oppCards).map fun q => q.2)
        (partitionPoint (fun q => decide (q.1 < ev (c1, c2)))
          (sorted_pairs bm ev oppCards))
        (partitionPoint (fun q => decide (q.1 ≤ ev (c1, c2)))
          (sorted_pairs bm ev oppCards)) c1 c2 +
      (match findIndexOf (c1, c2) oppCards with
        | some j => cfreach.getD j 0
        | none => 0) =
      sd_band_no_share cfreach oppCards
        ((sorted_pairs bm ev oppCards).map fun q => q.2)
        (partitionPoint (fun q => decide (q.1 < ev (c1, c2)))
          (sorted_pairs bm ev oppCards))
        (partitionPoint (fun q => decide (q.1 ≤ ev (c1, c2)))
          (sorted_pairs bm ev oppCards)) c1 c2 := by
  rw [sd_band_split oppCards cfreach c1 c2 (sorted_pairs bm ev oppCards)
    (sorted_pairs_pairwise _)
    (fun q hq => by
      have := (mem_sorted_pairs hq).1
      have hlen : (strength_list bm ev oppCards).length = oppCards.length :=
        List.length_map _ _
      omega)
    hOrd hc
    (fun q hq => by simp only [decide_eq_true_eq] at hq ⊢; omega)
    (fun a b hab hb => by simp only [decide_eq_true_eq] at hb ⊢; omega)
    (fun a b hab hb => by simp only [decide_eq_true_eq] at hb ⊢; omega)]
  have hextra : ((List.filter
      (fun q => decide (q.1 ≤ ev (c1, c2)) && !decide (q.1 < ev (c1, c2)))
      (sorted_pairs bm ev oppCards)).map fun q =>
        if oppCards.getD q.2 (0, 0) = (c1, c2) then -(cfreach.getD q.2 0)
        else 0).sum =
      (match findIndexOf (c1, c2) oppCards with
        | some j => -(cfreach.getD j 0)
        | none => 0) := by
    rw [sum_filter_ite]
    have hstep : ((sorted_pairs bm ev oppCards).map fun q =>
        if decide (q.1 ≤ ev (c1, c2)) && !decide (q.1 < ev (c1, c2)) then
          (if oppCards.getD q.2 (0, 0) = (c1, c2) then -(cfreach.getD q.2 0)
           else 0)
        else 0).sum =
        ((sorted_pairs bm ev oppCards).map fun q =>
          if oppCards.getD q.2 (0, 0) = (c1, c2) then -(cfreach.getD q.2 0)
          else 0).sum := by
      refine congrArg List.sum (List.map_congr_left fun q hq => ?_)
      by_cases heq : oppCards.getD q.2 (0, 0) = (c1, c2)
      · have hscore := score_of_identical hq htb1 htb2 heq
        rw [if_pos (by simp [hscore])]
      · rw [if_neg heq, ite_self]
    rw [hstep]
    have hperm : ((sorted_pairs bm ev oppCards).map fun q =>
        if oppCards.getD q.2 (0, 0) = (c1, c2) then -(cfreach.getD q.2 0)
        else 0).sum =
        (((strength_list bm ev oppCards).enum.map fun p => (p.2, p.1)).map
          fun q =>
            if oppCards.getD q.2 (0, 0) = (c1, c2) then -(cfreach.getD q.2 0)
            else 0).sum :=
      ((List.perm_insertionSort pairLe _).map _).sum_eq
    rw [hperm, List.map_map]
    have hphi : (((strength_list bm ev oppCards).enum.map
        ((fun q : ℕ × ℕ =>
          if oppCards.getD q.2 (0, 0) = (c1, c2) then -(cfreach.getD q.2 0)
          else 0) ∘ fun p : ℕ × ℕ => (p.2, p.1)))).sum =
        ((List.range (strength_list bm ev oppCards).length).map fun j =>
          if oppCards.getD j (0, 0) = (c1, c2) then -(cfreach.getD j 0)
          else 0).sum := by
      rw [← List.enum_map_fst (strength_list bm ev oppCards), List.map_map]
      rfl
    rw [hphi]
    have hlen : (strength_list bm ev oppCards).length = oppCards.length :=
      List.length_map _ _
    rw [hlen, ← List.enum_map_fst oppCards, List.map_map]
    have hpt : (oppCards.enum.map ((fun j =>
        if oppCards.getD j (0, 0) = (c1, c2) then -(cfreach.getD j 0)
        else 0) ∘ Prod.fst)).sum =
        (oppCards.enum.map fun p =>
          if p.2 = (c1, c2) then -(cfreach.getD p.1 0) else 0).sum := by
      refine congrArg List.sum (List.map_congr_left fun p hp => ?_)
      obtain ⟨j, h⟩ := p
      rcases List.mem_enum hp with ⟨hj, hh⟩
      simp only [Function.comp_apply]
      rw [List.getD_eq_getElem _ _ hj, ← hh]
    rw [hpt]
    have hind := sum_enumFrom_indicator oppCards (c1, c2)
      (fun j => -(cfreach.getD j 0)) hNodup 0
    simp only [Nat.zero_add] at hind
    exact hind
  rw [hextra]
  cases hf : findIndexOf (c1, c2) oppCards <;> simp

/-- A mask disjointness fact yields the two test-bit facts. -/
lemma mask_disjoint_testBit {c1 c2 bm : ℕ}
    (h : (2 ^ c1 ||| 2 ^ c2) &&& bm = 0) :
    bm.testBit c1 = false ∧ bm.testBit c2 = false := by
  constructor
  · have hbit := congrArg (fun n => Nat.testBit n c1) h
    simpa [Nat.testBit_and, Nat.testBit_lor, Nat.testBit_two_pow_self,
      Nat.zero_testBit] using hbit
  · have hbit := congrArg (fun n => Nat.testBit n c2) h
    simpa [Nat.testBit_and, Nat.testBit_lor, Nat.testBit_two_pow_self,
      Nat.zero_testBit] using hbit

/-- C1 (amended): at a showdown terminal, the three quantities computed
from the prefix sums along the strength-sorted opponent order equal the
naive band sums over sorted positions, restricted to opponent hands sharing
no card with the player's pair — the win and lose bands directly, and the
tie band after adding the `same_hand_index` correction (which exactly
cancels the double subtraction of the identical hand, so no extra
`cfreach[same_hand_index[i]]` remains) — and the written value is the
payoff-weighted combination of those band sums times
`num_combinations_inv`.  The evaluator is abstract with the positivity
contract at the player's hand. -/
theorem evaluate_showdown_bands (g : PostFlopGameE) (node : PostFlopNodeE)
    (player : ℕ) (cfreach result : List ℚ) (i c1 c2 : ℕ) (ev : ℕ × ℕ → ℕ)
    (hshow : ¬ (node.player &&& PLAYER_FOLD_FLAG = PLAYER_FOLD_FLAG))
    (hhs : g.hand_strength (board_index node.turn node.river) player =
      init_hand_strength_for (board_mask_of g node) ev (g.cards player)
        (g.cards (player ^^^ 1)))
    (hOrd : ∀ h ∈ g.cards (player ^^^ 1), h.1 < h.2)
    (hNodup : (g.cards (player ^^^ 1)).Nodup)
    (hsame : g.sameHand player =
      same_hand_index_of (g.cards player) (g.cards (player ^^^ 1)))
    (hlen : cfreach.length = (g.cards (player ^^^ 1)).length)
    (hres : result.length = (g.cards player).length)
    (hi : i < (g.cards player).length)
    (hhand : (g.cards player).getD i (0, 0) = (c1, c2))
    (hc : c1 < c2)
    (hdisj : (2 ^ c1 ||| 2 ^ c2) &&& board_mask_of g node = 0)
    (hev : 0 < ev (c1, c2)) :
    sd_band_query cfreach (g.cards (player ^^^ 1))
        (g.hand_strength (board_index node.turn node.river)
          player).opponent_increasing_index
        (g.hand_strength (board_index node.turn node.river)
          player).exclude_threshold
        ((g.hand_strength (board_index node.turn node.river)
          player).win_threshold.getD i 0) c1 c2 =
      sd_band_no_share cfreach (g.cards (player ^^^ 1))
        (g.hand_strength (board_index node.turn node.river)
          player).opponent_increasing_index
        (g.hand_strength (board_index node.turn node.river)
          player).exclude_threshold
        ((g.hand_strength (board_index node.turn node.river)
          player).win_threshold.getD i 0) c1 c2 ∧
    sd_band_query cfreach (g.cards (player ^^^ 1))
        (g.hand_strength (board_index node.turn node.river)
          player).opponent_increasing_index
        ((g.hand_strength (board_index node.turn node.river)
          player).win_threshold.getD i 0)
        ((g.hand_strength (board_index node.turn node.river)
          player).tie_threshold.getD i 0) c1 c2 +
      (((g.sameHand player).getD i none).map
        (fun j => cfreach.getD j 0)).getD 0 =
      sd_band_no_share cfreach (g.cards (player ^^^ 1))
        (g.hand_strength (board_index node.turn node.river)
          player).opponent_increasing_index
        ((g.hand_strength (board_index node.turn node.river)
          player).win_threshold.getD i 0)
        ((g.hand_strength (board_index node.turn node.river)
          player).tie_threshold.getD i 0) c1 c2 ∧
    sd_band_query cfreach (g.cards (player ^^^ 1))
        (g.hand_strength (board_index node.turn node.river)
          player).opponent_increasing_index
        ((g.hand_strength (board_index node.turn node.river)
          player).tie_threshold.getD i 0) cfreach.length c1 c2 =
      sd_band_no_share cfreach (g.cards (player ^^^ 1))
        (g.hand_strength (board_index node.turn node.river)
          player).opponent_increasing_index
        ((g.hand_strength (board_index node.turn node.river)
          player).tie_threshold.getD i 0) cfreach.length c1 c2 ∧
    (evaluate g result node player cfreach).getD i 0 =
      (((g.initialPot + node.amount : ℤ) : ℚ) *
          sd_band_no_share cfreach (g.cards (player ^^^ 1))
            (g.hand_strength (board_index node.turn node.river)
              player).opponent_increasing_index
            (g.hand_strength (board_index node.turn node.river)
              player).exclude_threshold
            ((g.hand_strength (board_index node.turn node.river)
              player).win_threshold.getD i 0) c1 c2 +
        (g.initialPot : ℚ) * (1 / 2) *
          sd_band_no_share cfreach (g.cards (player ^^^ 1))
            (g.hand_strength (board_index node.turn node.river)
              player).opponent_increasing_index
            ((g.hand_strength (board_index node.turn node.river)
              player).win_threshold.getD i 0)
            ((g.hand_strength (board_index node.turn node.river)
              player).tie_threshold.getD i 0) c1 c2 +
        ((-node.amount : ℤ) : ℚ) *
          sd_band_no_share cfreach (g.cards (player ^^^ 1))
            (g.hand_strength (board_index node.turn node.river)
              player).opponent_increasing_index
            ((g.hand_strength (board_index node.turn node.river)
              player).tie_threshold.getD i 0) cfreach.length c1 c2) *
        g.num_combinations_inv := by
  obtain ⟨htb1, htb2⟩ := mask_disjoint_testBit hdisj
  have hlenS : (strength_list (board_mask_of g node) ev
      (g.cards player)).length = (g.cards player).length :=
    List.length_map _ _
  have hv : (strength_list (board_mask_of g node) ev
      (g.cards player)).getD i 0 = ev (c1, c2) := by
    unfold strength_list
    rw [getD_map_lt _ _ hi 0 (0, 0), hhand]
    simp [htb1, htb2]
  have hIdx : (g.hand_strength (board_index node.turn node.river)
      player).opponent_increasing_index =
      (sorted_pairs (board_mask_of g node) ev
        (g.cards (player ^^^ 1))).map fun q => q.2 := by
    rw [hhs]
    rfl
  have hxeq : (g.hand_strength (board_index node.turn node.river)
      player).exclude_threshold =
      partitionPoint (fun q => decide (q.1 = 0))
        (sorted_pairs (board_mask_of g node) ev (g.cards (player ^^^ 1))) := by
    rw [hhs]
    rfl
  have hweq : (g.hand_strength (board_index node.turn node.river)
      player).win_threshold.getD i 0 =
      partitionPoint (fun q => decide (q.1 < ev (c1, c2)))
        (sorted_pairs (board_mask_of g node) ev (g.cards (player ^^^ 1))) := by
    rw [hhs]
    show ((strength_list (board_mask_of g node) ev (g.cards player)).map
      fun v => partitionPoint (fun q => decide (q.1 < v))
        (sorted_pairs (board_mask_of g node) ev
          (g.cards (player ^^^ 1)))).getD i 0 = _
    rw [getD_map_lt _ _ (by omega) 0 0, hv]
  have hteq : (g.hand_strength (board_index node.turn node.river)
      player).tie_threshold.getD i 0 =
      partitionPoint (fun q => decide (q.1 ≤ ev (c1, c2)))
        (sorted_pairs (board_mask_of g node) ev (g.cards (player ^^^ 1))) := by
    rw [hhs]
    show ((strength_list (board_mask_of g node) ev (g.cards player)).map
      fun v => partitionPoint (fun q => decide (q.1 ≤ v))
        (sorted_pairs (board_mask_of g node) ev
          (g.cards (player ^^^ 1)))).getD i 0 = _
    rw [getD_map_lt _ _ (by omega) 0 0, hv]
  have hLeq : cfreach.length =
      partitionPoint (fun _ => true)
        (sorted_pairs (board_mask_of g node) ev (g.cards (player ^^^ 1))) := by
    rw [partitionPoint_true]
    unfold sorted_pairs
    rw [List.length_insertionSort, List.length_map, List.enum_length]
    unfold strength_list
    rw [List.length_map]
    exact hlen
  have hmatch : (((g.sameHand player).getD i none).map
      (fun j => cfreach.getD j 0)).getD 0 =
      (match findIndexOf (c1, c2) (g.cards (player ^^^ 1)) with
        | some j => cfreach.getD j 0
        | none => 0) := by
    rw [hsame]
    unfold same_hand_index_of
    rw [getD_map_lt _ _ hi none (0, 0), hhand]
    cases findIndexOf (c1, c2) (g.cards (player ^^^ 1)) <;> rfl
  have hW := @sd_band_eq_of_no_identical (board_mask_of g node) ev
    (g.cards (player ^^^ 1)) cfreach c1 c2 hOrd hc htb1 htb2
    (fun q => decide (q.1 = 0))
    (fun q => decide (q.1 < ev (c1, c2)))
    (fun q hq => by simp only [decide_eq_true_eq] at hq ⊢; omega)
    (fun a b hab hb => by simp only [decide_eq_true_eq] at hb ⊢; omega)
    (fun a b hab hb => by simp only [decide_eq_true_eq] at hb ⊢; omega)
    (fun n2 hq => by simp only [decide_eq_true_eq] at hq ⊢; omega)
  have hT := sd_tie_band_eq (board_mask_of g node) ev (g.cards (player ^^^ 1))
    cfreach c1 c2 hOrd hNodup hc htb1 htb2
  have hL := @sd_band_eq_of_no_identical (board_mask_of g node) ev
    (g.cards (player ^^^ 1)) cfreach c1 c2 hOrd hc htb1 htb2
    (fun q => decide (q.1 ≤ ev (c1, c2)))
    (fun _ => true)
    (fun q hq => rfl)
    (fun a b hab hb => by simp only [decide_eq_true_eq] at hb ⊢; omega)
    (fun a b hab hb => rfl)
    (fun n2 hq => by simp only [decide_eq_true_eq]; omega)
  refine ⟨?_, ?_, ?_, ?_⟩
  · rw [hIdx, hxeq, hweq]
    exact hW
  · rw [hIdx, hweq, hteq, hmatch]
    exact hT
  · rw [hIdx, hteq, hLeq]
    exact hL
  · rw [evaluate, if_neg hshow]
    unfold evaluate_showdown_values
    rw [mapIdxFrom_getD _ result 0 i (by omega) 0 0]
    simp only [zero_add, hhand]
    rw [if_pos hdisj]
    rw [hIdx, hxeq, hweq, hteq, hLeq, hmatch, hW, hT, hL]

/-- Concrete showdown fixture: flop `2 3 4`, turn 5, river 6, pot 2, both
players holding the single hand `(0, 1)`, evaluator `h.1 + h.2 + 1`. -/
def gW2 : PostFlopGameE :=
  ⟨2, 3, 4, 2, 1, [(0, 1)], [(0, 1)], [some 0], [some 0],
    fun _ _ => init_hand_strength_for (2 ^ 2 ||| 2 ^ 3 ||| 2 ^ 4 ||| 2 ^ 5 ||| 2 ^ 6)
      (fun h => h.1 + h.2 + 1) [(0, 1)] [(0, 1)]⟩

/-- Concrete showdown node for `gW2`. -/
def nodeW2 : PostFlopNodeE := ⟨0x100, 5, 6, 0⟩

/-- Counterexample to C1 as frozen: with the opponent holding the identical
hand `(0, 1)` at reach 1, the computed tie quantity is the share-free band
sum alone (the correction cancels the double subtraction), not the
share-free band sum plus `cfreach[same_hand_index[i]]`; the claimed result
formula fails with it. -/
theorem evaluate_showdown_bands_counterexample :
    ¬ (sd_band_query [1] (gW2.cards (0 ^^^ 1))
          (gW2.hand_strength (board_index nodeW2.turn nodeW2.river)
            0).opponent_increasing_index
          (gW2.hand_strength (board_index nodeW2.turn nodeW2.river)
            0).exclude_threshold
          ((gW2.hand_strength (board_index nodeW2.turn nodeW2.river)
            0).win_threshold.getD 0 0) 0 1 =
        sd_band_no_share [1] (gW2.cards (0 ^^^ 1))
          (gW2.hand_strength (board_index nodeW2.turn nodeW2.river)
            0).opponent_increasing_index
          (gW2.hand_strength (board_index nodeW2.turn nodeW2.river)
            0).exclude_threshold
          ((gW2.hand_strength (board_index nodeW2.turn nodeW2.river)
            0).win_threshold.getD 0 0) 0 1 ∧
      sd_band_query [1] (gW2.cards (0 ^^^ 1))
          (gW2.hand_strength (board_index nodeW2.turn nodeW2.river)
            0).opponent_increasing_index
          ((gW2.hand_strength (board_index nodeW2.turn nodeW2.river)
            0).win_threshold.getD 0 0)
          ((gW2.hand_strength (board_index nodeW2.turn nodeW2.river)
            0).tie_threshold.getD 0 0) 0 1 +
        (((gW2.sameHand 0).getD 0 none).map
          (fun j => ([1] : List ℚ).getD j 0)).getD 0 =
        sd_band_no_share [1] (gW2.cards (0 ^^^ 1))
          (gW2.hand_strength (board_index nodeW2.turn nodeW2.river)
            0).opponent_increasing_index
          ((gW2.hand_strength (board_index nodeW2.turn nodeW2.river)
            0).win_threshold.getD 0 0)
          ((gW2.hand_strength (board_index nodeW2.turn nodeW2.river)
            0).tie_threshold.getD 0 0) 0 1 +
        (((gW2.sameHand 0).getD 0 none).map
          (fun j => ([1] : List ℚ).getD j 0)).getD 0 ∧
      sd_band_query [1] (gW2.cards (0 ^^^ 1))
          (gW2.hand_strength (board_index nodeW2.turn nodeW2.river)
            0).opponent_increasing_index
          ((gW2.hand_strength (board_index nodeW2.turn nodeW2.river)
            0).tie_threshold.getD 0 0) ([1] : List ℚ).length 0 1 =
        sd_band_no_share [1] (gW2.cards (0 ^^^ 1))
          (gW2.hand_strength (board_index nodeW2.turn nodeW2.river)
            0).opponent_increasing_index
          ((gW2.hand_strength (board_index nodeW2.turn nodeW2.river)
            0).tie_threshold.getD 0 0) ([1] : List ℚ).length 0 1 ∧
      (evaluate gW2 [0] nodeW2 0 [1]).getD 0 0 =
        (((gW2.initialPot + nodeW2.amount : ℤ) : ℚ) *
            sd_band_no_share [1] (gW2.cards (0 ^^^ 1))
              (gW2.hand_strength (board_index nodeW2.turn nodeW2.river)
                0).opponent_increasing_index
              (gW2.hand_strength (board_index nodeW2.turn nodeW2.river)
                0).exclude_threshold
              ((gW2.hand_strength (board_index nodeW2.turn nodeW2.river)
                0).win_threshold.getD 0 0) 0 1 +
          (gW2.initialPot : ℚ) * (1 / 2) *
            (sd_band_no_share [1] (gW2.cards (0 ^^^ 1))
              (gW2.hand_strength (board_index nodeW2.turn nodeW2.river)
                0).opponent_increasing_index
              ((gW2.hand_strength (board_index nodeW2.turn nodeW2.river)
                0).win_threshold.getD 0 0)
              ((gW2.hand_strength (board_index nodeW2.turn nodeW2.river)
                0).tie_threshold.getD 0 0) 0 1 +
             (((gW2.sameHand 0).getD 0 none).map
               (fun j => ([1] : List ℚ).getD j 0)).getD 0) +
          ((-nodeW2.amount : ℤ) : ℚ) *
            sd_band_no_share [1] (gW2.cards (0 ^^^ 1))
              (gW2.hand_strength (board_index nodeW2.turn nodeW2.river)
                0).opponent_increasing_index
              ((gW2.hand_strength (board_index nodeW2.turn nodeW2.river)
                0).tie_threshold.getD 0 0) ([1] : List ℚ).length 0 1) *
          gW2.num_combinations_inv) := by
  intro hcl
  obtain ⟨-, h2, -, -⟩ := hcl
  have hIdx : (gW2.hand_strength (board_index nodeW2.turn nodeW2.river)
      0).opponent_increasing_index = [0] := by decide
  have hw : (gW2.hand_strength (board_index nodeW2.turn nodeW2.river)
      0).win_threshold.getD 0 0 = 0 := by decide
  have ht : (gW2.hand_strength (board_index nodeW2.turn nodeW2.river)
      0).tie_threshold.getD 0 0 = 1 := by decide
  have hopp : gW2.cards (0 ^^^ 1) = [(0, 1)] := by decide
  have hsm : gW2.sameHand 0 = [some 0] := by decide
  rw [hIdx, hw, ht, hopp, hsm] at h2
  simp [sd_band_query, sd_cfreach_sum, sd_cfreach_minus, sd_band_no_share,
    List.getD] at h2

/-- Witness for C1 (amended) at the concrete fixture: identical hand
ranges, opponent reach 1, showdown on board `2 3 4 5 6`. -/
theorem evaluate_showdown_bands_witness :
    (¬ (nodeW2.player &&& PLAYER_FOLD_FLAG = PLAYER_FOLD_FLAG) ∧
     (0 : ℕ) < 1 ∧ (2 ^ 0 ||| 2 ^ 1) &&& board_mask_of gW2 nodeW2 = 0) ∧
    (sd_band_query [1] (gW2.cards (0 ^^^ 1))
        (gW2.hand_strength (board_index nodeW2.turn nodeW2.river)
          0).opponent_increasing_index
        (gW2.hand_strength (board_index nodeW2.turn nodeW2.river)
          0).exclude_threshold
        ((gW2.hand_strength (board_index nodeW2.turn nodeW2.river)
          0).win_threshold.getD 0 0) 0 1 =
      sd_band_no_share [1] (gW2.cards (0 ^^^ 1))
        (gW2.hand_strength (board_index nodeW2.turn nodeW2.river)
          0).opponent_increasing_index
        (gW2.hand_strength (board_index nodeW2.turn nodeW2.river)
          0).exclude_threshold
        ((gW2.hand_strength (board_index nodeW2.turn nodeW2.river)
          0).win_threshold.getD 0 0) 0 1 ∧
    sd_band_query [1] (gW2.cards (0 ^^^ 1))
        (gW2.hand_strength (board_index nodeW2.turn nodeW2.river)
          0).opponent_increasing_index
        ((gW2.hand_strength (board_index nodeW2.turn nodeW2.river)
          0).win_threshold.getD 0 0)
        ((gW2.hand_strength (board_index nodeW2.turn nodeW2.river)
          0).tie_threshold.getD 0 0) 0 1 +
      (((gW2.sameHand 0).getD 0 none).map
        (fun j => ([1] : List ℚ).getD j 0)).getD 0 =
      sd_band_no_share [1] (gW2.cards (0 ^^^ 1))
        (gW2.hand_strength (board_index nodeW2.turn nodeW2.river)
          0).opponent_increasing_index
        ((gW2.hand_strength (board_index nodeW2.turn nodeW2.river)
          0).win_threshold.getD 0 0)
        ((gW2.hand_strength (board_index nodeW2.turn nodeW2.river)
          0).tie_threshold.getD 0 0) 0 1 ∧
    sd_band_query [1] (gW2.cards (0 ^^^ 1))
        (gW2.hand_strength (board_index nodeW2.turn nodeW2.river)
          0).opponent_increasing_index
        ((gW2.hand_strength (board_index nodeW2.turn nodeW2.river)
          0).tie_threshold.getD 0 0) ([1] : List ℚ).length 0 1 =
      sd_band_no_share [1] (gW2.cards (0 ^^^ 1))
        (gW2.hand_strength (board_index nodeW2.turn nodeW2.river)
          0).opponent_increasing_index
        ((gW2.hand_strength (board_index nodeW2.turn nodeW2.river)
          0).tie_threshold.getD 0 0) ([1] : List ℚ).length 0 1 ∧
    (evaluate gW2 [0] nodeW2 0 [1]).getD 0 0 =
      (((gW2.initialPot + nodeW2.amount : ℤ) : ℚ) *
          sd_band_no_share [1] (gW2.cards (0 ^^^ 1))
            (gW2.hand_strength (board_index nodeW2.turn nodeW2.river)
              0).opponent_increasing_index
            (gW2.hand_strength (board_index nodeW2.turn nodeW2.river)
              0).exclude_threshold
            ((gW2.hand_strength (board_index nodeW2.turn nodeW2.river)
              0).win_threshold.getD 0 0) 0 1 +
        (gW2.initialPot : ℚ) * (1 / 2) *
          sd_band_no_share [1] (gW2.cards (0 ^^^ 1))
            (gW2.hand_strength (board_index nodeW2.turn nodeW2.river)
              0).opponent_increasing_index
            ((gW2.hand_strength (board_index nodeW2.turn nodeW2.river)
              0).win_threshold.getD 0 0)
            ((gW2.hand_strength (board_index nodeW2.turn nodeW2.river)
              0).tie_threshold.getD 0 0) 0 1 +
        ((-nodeW2.amount : ℤ) : ℚ) *
          sd_band_no_share [1] (gW2.cards (0 ^^^ 1))
            (gW2.hand_strength (board_index nodeW2.turn nodeW2.river)
              0).opponent_increasing_index
            ((gW2.hand_strength (board_index nodeW2.turn nodeW2.river)
              0).tie_threshold.getD 0 0) ([1] : List ℚ).length 0 1) *
        gW2.num_combinations_inv) :=
  ⟨⟨by decide, by decide, by decide⟩,
   evaluate_showdown_bands gW2 nodeW2 0 [1] [0] 0 0 1
     (fun h => h.1 + h.2 + 1) (by decide) rfl (by decide) (by decide)
     (by decide) (by decide) (by decide) (by decide) (by decide) (by decide)
     (by decide) (by decide)⟩

/-! ### C7: the action list pushed at a player node -/

/-- Embedding of the `Action` enum; `i32` payloads as `ℤ`, chance cards as
`ℕ`. -/
inductive ActionE : Type where
  | non : ActionE
  | fold : ActionE
  | check : ActionE
  | call : ActionE
  | bet : ℤ → ActionE
  | raise : ℤ → ActionE
  | allIn : ActionE
  | chance : ℕ → ActionE
deriving DecidableEq

/-- Variant discriminant of the derived `Ord` on `Action`. -/
def ActionE.variantIdx : ActionE → ℕ
  | ActionE.non => 0
  | ActionE.fold => 1
  | ActionE.check => 2
  | ActionE.call => 3
  | ActionE.bet _ => 4
  | ActionE.raise _ => 5
  | ActionE.allIn => 6
  | ActionE.chance _ => 7

/-- Payload compared by the derived `Ord` when the variants agree. -/
def ActionE.payload : ActionE → ℤ
  | ActionE.bet n => n
  | ActionE.raise n => n
  | ActionE.chance c => (c : ℤ)
  | _ => 0

/-- Strict order of the derived `Ord` on `Action`. -/
def actLt (a b : ActionE) : Prop :=
  a.variantIdx < b.variantIdx ∨
    (a.variantIdx = b.variantIdx ∧ a.payload < b.payload)

instance : DecidableRel actLt := fun a b => by
  unfold actLt; exact inferInstance

/-- Lexicographic comparison of the `(Action, u16)` pairs sorted by
`sort_unstable`. -/
def pairALe (x y : ActionE × ℕ) : Prop :=
  actLt x.1 y.1 ∨ (x.1 = y.1 ∧ x.2 ≤ y.2)

/-- Strict version of `pairALe`. -/
def pairALt (x y : ActionE × ℕ) : Prop :=
  actLt x.1 y.1 ∨ (x.1 = y.1 ∧ x.2 < y.2)

instance : DecidableRel pairALe := fun x y => by
  unfold pairALe; exact inferInstance

instance : DecidableRel pairALt := fun x y => by
  unfold pairALt; exact inferInstance

lemma actionE_eq_of_key {a b : ActionE} (h1 : a.variantIdx = b.variantIdx)
    (h2 : a.payload = b.payload) : a = b := by
  cases a <;> cases b <;> simp_all [ActionE.variantIdx, ActionE.payload]

lemma actLt_trans {a b c : ActionE} (h1 : actLt a b) (h2 : actLt b c) :
    actLt a c := by
  unfold actLt at *; omega

lemma actLt_ne {a b : ActionE} (h : actLt a b) : a ≠ b := by
  intro he
  subst he
  unfold actLt at h
  omega

instance : IsTotal (ActionE × ℕ) pairALe :=
  ⟨fun x y => by
    unfold pairALe actLt
    rcases Nat.lt_trichotomy x.1.variantIdx y.1.variantIdx with h | h | h
    · exact Or.inl (Or.inl (Or.inl h))
    · rcases Int.lt_trichotomy x.1.payload y.1.payload with h2 | h2 | h2
      · exact Or.inl (Or.inl (Or.inr ⟨h, h2⟩))
      · have he : x.1 = y.1 := actionE_eq_of_key h h2
        rcases Nat.le_total x.2 y.2 with h3 | h3
        · exact Or.inl (Or.inr ⟨he, h3⟩)
        · exact Or.inr (Or.inr ⟨he.symm, h3⟩)
      · exact Or.inr (Or.inl (Or.inr ⟨h.symm, h2⟩))
    · exact Or.inr (Or.inl (Or.inl h))⟩

instance : IsTrans (ActionE × ℕ) pairALe :=
  ⟨fun x y z hxy hyz => by
    rcases hxy with h1 | ⟨he1, h1⟩ <;> rcases hyz with h2 | ⟨he2, h2⟩
    · exact Or.inl (actLt_trans h1 h2)
    · exact Or.inl (by rw [he2] at h1; exact h1)
    · exact Or.inl (by rw [← he1] at h2; exact h2)
    · exact Or.inr ⟨he1.trans he2, Nat.le_trans h1 h2⟩⟩

lemma pairALt_trans {x y z : ActionE × ℕ} (h1 : pairALt x y)
    (h2 : pairALt y z) : pairALt x z := by
  rcases h1 with h1 | ⟨he1, h1⟩ <;> rcases h2 with h2 | ⟨he2, h2⟩
  · exact Or.inl (actLt_trans h1 h2)
  · exact Or.inl (by rw [he2] at h1; exact h1)
  · exact Or.inl (by rw [← he1] at h2; exact h2)
  · exact Or.inr ⟨he1.trans he2, Nat.lt_trans h1 h2⟩

instance : IsTrans (ActionE × ℕ) pairALt :=
  ⟨fun _ _ _ h1 h2 => pairALt_trans h1 h2⟩

lemma pairALt_of_le_ne {x y : ActionE × ℕ} (hle : pairALe x y)
    (hne : ¬ x = y) : pairALt x y := by
  rcases hle with h1 | ⟨he, h2⟩
  · exact Or.inl h1
  · rcases Nat.lt_or_ge x.2 y.2 with h3 | h3
    · exact Or.inr ⟨he, h3⟩
    · exact absurd (Prod.ext_iff.mpr ⟨he, Nat.le_antisymm h2 h3⟩) hne

/-- `Vec::dedup`: drop consecutive equal elements. -/
def dedupAdj {α : Type} [DecidableEq α] : List α → List α
  | [] => []
  | [a] => [a]
  | a :: b :: t => if a = b then dedupAdj (b :: t) else a :: dedupAdj (b :: t)

lemma dedupAdj_sublist {α : Type} [DecidableEq α] :
    ∀ l : List α, List.Sublist (dedupAdj l) l := by
  intro l
  induction l with
  | nil => simp [dedupAdj]
  | cons a t ih =>
    cases t with
    | nil => simp [dedupAdj]
    | cons b t2 =>
      by_cases hab : a = b
      · rw [show dedupAdj (a :: b :: t2) = dedupAdj (b :: t2) from by
          simp [dedupAdj, hab]]
        exact ih.cons a
      · rw [show dedupAdj (a :: b :: t2) = a :: dedupAdj (b :: t2) from by
          simp [dedupAdj, hab]]
        exact ih.cons₂ a

lemma mem_dedupAdj {α : Type} [DecidableEq α] {x : α} :
    ∀ l : List α, x ∈ dedupAdj l ↔ x ∈ l := by
  intro l
  induction l with
  | nil => simp [dedupAdj]
  | cons a t ih =>
    cases t with
    | nil => simp [dedupAdj]
    | cons b t2 =>
      by_cases hab : a = b
      · subst hab
        rw [show dedupAdj (a :: a :: t2) = dedupAdj (a :: t2) from by
          simp [dedupAdj]]
        rw [ih]
        simp [List.mem_cons]
      · rw [show dedupAdj (a :: b :: t2) = a :: dedupAdj (b :: t2) from by
          simp [dedupAdj, hab]]
        simp [List.mem_cons, ih]

lemma dedupAdj_cons_eq {α : Type} [DecidableEq α] :
    ∀ (t : List α) (b : α), ∃ t2, dedupAdj (b :: t) = b :: t2 := by
  intro t
  induction t with
  | nil => intro b; exact ⟨[], rfl⟩
  | cons c t2 ih =>
    intro b
    by_cases hbc : b = c
    · subst hbc
      obtain ⟨u, hu⟩ := ih b
      refine ⟨u, ?_⟩
      rw [show dedupAdj (b :: b :: t2) = dedupAdj (b :: t2) from by
        simp [dedupAdj]]
      exact hu
    · exact ⟨dedupAdj (c :: t2), by simp [dedupAdj, hbc]⟩

lemma chain'_ne_dedupAdj {α : Type} [DecidableEq α] :
    ∀ l : List α, (dedupAdj l).Chain' (fun x y => ¬ x = y) := by
  intro l
  induction l with
  | nil => simp [dedupAdj]
  | cons a t ih =>
    cases t with
    | nil => simp [dedupAdj]
    | cons b t2 =>
      by_cases hab : a = b
      · rw [show dedupAdj (a :: b :: t2) = dedupAdj (b :: t2) from by
          simp [dedupAdj, hab]]
        exact ih
      · rw [show dedupAdj (a :: b :: t2) = a :: dedupAdj (b :: t2) from by
          simp [dedupAdj, hab]]
        obtain ⟨t3, ht3⟩ := dedupAdj_cons_eq t2 b
        rw [ht3]
        rw [ht3] at ih
        exact List.chain'_cons.mpr ⟨hab, ih⟩

/-- Sequence a panic-propagating map over a list. -/
def mapOptionA {α β : Type} (f : α → Option β) : List α → Option (List β)
  | [] => some []
  | a :: t =>
    match f a, mapOptionA f t with
    | some b, some bs => some (b :: bs)
    | _, _ => none

lemma mapOptionA_mem {α β : Type} (f : α → Option β) :
    ∀ (l : List α) (ys : List β), mapOptionA f l = some ys →
      ∀ y ∈ ys, ∃ x ∈ l, f x = some y := by
  intro l
  induction l with
  | nil =>
    intro ys h y hy
    simp only [mapOptionA, Option.some.injEq] at h
    subst h
    simp at hy
  | cons a t ih =>
    intro ys h y hy
    rw [show mapOptionA f (a :: t) =
        (match f a, mapOptionA f t with
          | some b, some bs => some (b :: bs)
          | _, _ => none) from rfl] at h
    cases hfa : f a with
    | none => rw [hfa] at h; simp at h
    | some b =>
      cases hmt : mapOptionA f t with
      | none => rw [hfa, hmt] at h; simp at h
      | some bs =>
        rw [hfa, hmt] at h
        simp only [Option.some.injEq] at h
        subst h
        rcases List.mem_cons.mp hy with hyb | hybs
        · exact ⟨a, List.mem_cons_self a t, by rw [hfa, hyb]⟩
        · obtain ⟨x, hx, hfx⟩ := ih bs hmt y hybs
          exact ⟨x, List.mem_cons_of_mem a hx, hfx⟩

/-- Modelled from the spec: a bet-size specification (`crate::bet_size` is
outside this file), a fraction of the pot or of the last bet. -/
inductive BetSize : Type where
  | potRelative : ℚ → BetSize
  | lastBetRelative : ℚ → BetSize

/-- Modelled from the spec: candidate lists for first bets and raises. -/
structure BetSizeCandidates : Type where
  bet : List BetSize
  raise : List BetSize

/-- `f32::round` on exact rationals: round half away from zero. -/
def rustRound (q : ℚ) : ℤ :=
  if q < 0 then -(Int.floor (-q + 1 / 2)) else Int.floor (q + 1 / 2)

/-- The `matches!(last_action, None | Check | Chance(_))` test selecting
the check branch of `push_actions`. -/
def matchesCheckBranch : ActionE → Bool
  | ActionE.non => true
  | ActionE.check => true
  | ActionE.chance _ => true
  | _ => false

/-- Bet-size adjustment of `push_actions`: clamp into
`[min_bet, max_bet]`, reclassifying a clamp to the maximum as all-in. -/
def adjust_action (min_bet max_bet : ℤ) : ActionE → ActionE
  | ActionE.bet size =>
    if max min_bet (min size max_bet) = max_bet then ActionE.allIn
    else if size = max min_bet (min size max_bet) then ActionE.bet size
    else ActionE.bet (max min_bet (min size max_bet))
  | ActionE.raise size =>
    if max min_bet (min size max_bet) = max_bet then ActionE.allIn
    else if size = max min_bet (min size max_bet) then ActionE.raise size
    else ActionE.raise (max min_bet (min size max_bet))
  | a => a

lemma adjust_action_fold_iff (mn mx : ℤ) (a : ActionE) :
    adjust_action mn mx a = ActionE.fold ↔ a = ActionE.fold := by
  cases a <;> simp only [adjust_action] <;> try rfl
  all_goals (split_ifs <;> simp)

/-- The next player stored with each action by `push_actions`. -/
def snd_of_action (pach pfold pac opp : ℕ) : ActionE → ℕ
  | ActionE.check => pach
  | ActionE.fold => pfold
  | ActionE.call => pac
  | _ => opp

lemma snd_of_adjust (pach pfold pac opp : ℕ) (mn mx : ℤ) (a : ActionE) :
    snd_of_action pach pfold pac opp (adjust_action mn mx a) =
      snd_of_action pach pfold pac opp a := by
  cases a <;> simp only [adjust_action] <;> try rfl
  all_goals (split_ifs <;> rfl)

/-- A first-bet candidate: pot-relative sizes round the pot fraction; a
last-bet-relative size panics in the open-bet position. -/
def bet_candidate_of (pot : ℤ) (player_opponent : ℕ) :
    BetSize → Option (ActionE × ℕ)
  | BetSize.potRelative ratio =>
    some (ActionE.bet (rustRound ((pot : ℚ) * ratio)), player_opponent)
  | BetSize.lastBetRelative _ => none

/-- A raise candidate. -/
def raise_candidate_of (pot opponent_bet : ℤ) (player_opponent : ℕ) :
    BetSize → ActionE × ℕ
  | BetSize.potRelative ratio =>
    (ActionE.raise (opponent_bet + rustRound ((pot : ℚ) * ratio)),
      player_opponent)
  | BetSize.lastBetRelative ratio =>
    (ActionE.raise (rustRound ((opponent_bet : ℚ) * ratio)), player_opponent)

/-- The raw action list of `push_actions` before adjustment: check plus
first bets after a check-like action, fold, call and raises after a bet. -/
def base_actions (lastAction : ActionE)
    (player player_opponent pac pach : ℕ) (pot opponent_bet : ℤ)
    (candidates : BetSizeCandidates) (num_bet max_num_bet : ℤ)
    (allin_flag : Bool) : Option (List (ActionE × ℕ)) :=
  if matchesCheckBranch lastAction then
    (if num_bet < max_num_bet then
        mapOptionA (bet_candidate_of pot player_opponent) candidates.bet
      else some []).map (fun bets => (ActionE.check, pach) :: bets)
  else
    some ([(ActionE.fold, PLAYER_FOLD_FLAG ||| player),
           (ActionE.call, pac)] ++
      (if allin_flag = false ∧ num_bet < max_num_bet then
          candidates.raise.map
            (raise_candidate_of pot opponent_bet player_opponent)
        else []))

/-- Adjustment, `sort_unstable` and `dedup` applied to the raw list. -/
def finishActions (min_bet max_bet : ℤ) (acts : List (ActionE × ℕ)) :
    List (ActionE × ℕ) :=
  dedupAdj ((acts.map fun p =>
    (adjust_action min_bet max_bet p.1, p.2)).insertionSort pairALe)

/-- `player_after_call`. -/
def player_after_call_of (is_river : Bool) : ℕ :=
  if is_river then PLAYER_TERMINAL_FLAG else PLAYER_CHANCE

/-- `player_after_check`. -/
def player_after_check_of (player player_opponent pac : ℕ) : ℕ :=
  if player = PLAYER_OOP then player_opponent else pac

/-- Embedding of `PostFlopGame::push_actions`: the `(action, next_player)`
pairs pushed as children, `none` when the code panics. -/
def pushActions (node_player : ℕ) (node_amount : ℤ) (lastAction : ActionE)
    (player_bet opponent_bet num_bet max_num_bet : ℤ) (allin_flag : Bool)
    (initial_pot initial_stack : ℤ) (candidates : BetSizeCandidates)
    (is_river : Bool) : Option (List (ActionE × ℕ)) :=
  (base_actions lastAction node_player (node_player ^^^ 1)
      (player_after_call_of is_river)
      (player_after_check_of node_player (node_player ^^^ 1)
        (player_after_call_of is_river))
      (initial_pot + 2 * (node_amount + (opponent_bet - player_bet)))
      opponent_bet candidates num_bet max_num_bet allin_flag).map
    (finishActions
      (min (initial_stack - node_amount + player_bet)
        (opponent_bet + (opponent_bet - player_bet)))
      (initial_stack - node_amount + player_bet))

lemma finish_sorted (mn mx : ℤ) (acts0 : List (ActionE × ℕ))
    (pach pfold pac opp : ℕ)
    (hsnd : ∀ x ∈ acts0, x.2 = snd_of_action pach pfold pac opp x.1) :
    ((finishActions mn mx acts0).map Prod.fst).Pairwise actLt := by
  set adjusted := acts0.map (fun p => (adjust_action mn mx p.1, p.2))
    with hadj
  have hsnd2 : ∀ x ∈ adjusted, x.2 = snd_of_action pach pfold pac opp x.1 := by
    intro x hx
    rw [hadj] at hx
    obtain ⟨q, hq, hxq⟩ := List.mem_map.mp hx
    subst hxq
    rw [snd_of_adjust]
    exact hsnd q hq
  have hPW_le : (adjusted.insertionSort pairALe).Pairwise pairALe :=
    List.sorted_insertionSort pairALe adjusted
  have hsub := dedupAdj_sublist (adjusted.insertionSort pairALe)
  have hPW_led : (finishActions mn mx acts0).Pairwise pairALe := by
    unfold finishActions
    exact hPW_le.sublist hsub
  have hch_ne : (finishActions mn mx acts0).Chain' (fun x y => ¬ x = y) :=
    chain'_ne_dedupAdj _
  have hch_lt : (finishActions mn mx acts0).Chain' pairALt := by
    have hch_le : (finishActions mn mx acts0).Chain' pairALe := hPW_led.chain'
    rw [List.chain'_iff_get] at hch_le hch_ne ⊢
    intro i h
    exact pairALt_of_le_ne (hch_le i h) (hch_ne i h)
  have hPW_lt : (finishActions mn mx acts0).Pairwise pairALt :=
    List.chain'_iff_pairwise.mp hch_lt
  have hmemA : ∀ x ∈ finishActions mn mx acts0, x ∈ adjusted := by
    intro x hx
    unfold finishActions at hx
    exact (List.perm_insertionSort pairALe adjusted).subset
      ((mem_dedupAdj _).mp hx)
  rw [List.pairwise_map]
  refine hPW_lt.imp_of_mem ?_
  intro a b ha hb hab
  rcases hab with h | ⟨he, h2⟩
  · exact h
  · exfalso
    have hsa := hsnd2 a (hmemA a ha)
    have hsb := hsnd2 b (hmemA b hb)
    rw [he] at hsa
    omega

lemma finish_fold_mem (mn mx : ℤ) (acts0 : List (ActionE × ℕ)) :
    ActionE.fold ∈ (finishActions mn mx acts0).map Prod.fst ↔
      ∃ x ∈ acts0, x.1 = ActionE.fold := by
  unfold finishActions
  constructor
  · intro h
    obtain ⟨x, hx, hx1⟩ := List.mem_map.mp h
    have hxa : x ∈ acts0.map (fun p => (adjust_action mn mx p.1, p.2)) :=
      (List.perm_insertionSort pairALe _).subset ((mem_dedupAdj _).mp hx)
    obtain ⟨q, hq, hxq⟩ := List.mem_map.mp hxa
    refine ⟨q, hq, ?_⟩
    rw [← adjust_action_fold_iff mn mx]
    have h1 : adjust_action mn mx q.1 = x.1 := by rw [← hxq]
    rw [h1]
    exact hx1
  · intro hex
    obtain ⟨q, hq, hq1⟩ := hex
    refine List.mem_map.mpr ⟨(ActionE.fold, q.2), ?_, rfl⟩
    rw [mem_dedupAdj]
    refine (List.perm_insertionSort pairALe _).mem_iff.mpr ?_
    refine List.mem_map.mpr ⟨q, hq, ?_⟩
    rw [hq1]
    rfl

lemma base_actions_facts (lastAction : ActionE)
    (player player_opponent pac pach : ℕ) (pot opponent_bet : ℤ)
    (candidates : BetSizeCandidates) (num_bet max_num_bet : ℤ)
    (allin_flag : Bool) (acts0 : List (ActionE × ℕ))
    (h : base_actions lastAction player player_opponent pac pach pot
      opponent_bet candidates num_bet max_num_bet allin_flag = some acts0) :
    (∀ x ∈ acts0, x.2 = snd_of_action pach (PLAYER_FOLD_FLAG ||| player) pac
      player_opponent x.1) ∧
    ((∃ x ∈ acts0, x.1 = ActionE.fold) ↔
      matchesCheckBranch lastAction = false) := by
  unfold base_actions at h
  by_cases hbr : matchesCheckBranch lastAction = true
  · rw [if_pos hbr] at h
    cases hbets : (if num_bet < max_num_bet then
        mapOptionA (bet_candidate_of pot player_opponent) candidates.bet
      else some []) with
    | none => rw [hbets] at h; simp at h
    | some bets =>
      rw [hbets] at h
      simp only [Option.map_some', Option.some.injEq] at h
      subst h
      have hmemb : ∀ y ∈ bets, (∃ n, y.1 = ActionE.bet n) ∧
          y.2 = player_opponent := by
        intro y hy
        by_cases hnb : num_bet < max_num_bet
        · rw [if_pos hnb] at hbets
          obtain ⟨bs, hbs, hfbs⟩ := mapOptionA_mem _ _ _ hbets y hy
          cases bs with
          | potRelative r =>
            simp only [bet_candidate_of, Option.some.injEq] at hfbs
            subst hfbs
            exact ⟨⟨_, rfl⟩, rfl⟩
          | lastBetRelative r =>
            simp [bet_candidate_of] at hfbs
        · rw [if_neg hnb] at hbets
          simp only [Option.some.injEq] at hbets
          subst hbets
          simp at hy
      constructor
      · intro x hx
        rcases List.mem_cons.mp hx with hx1 | hx2
        · subst hx1
          rfl
        · obtain ⟨⟨n, hn⟩, h2⟩ := hmemb x hx2
          rw [h2, hn]
          rfl
      · constructor
        · intro hex
          obtain ⟨x, hx, hxf⟩ := hex
          rcases List.mem_cons.mp hx with hx1 | hx2
          · subst hx1
            exact absurd hxf (by simp)
          · obtain ⟨⟨n, hn⟩, _⟩ := hmemb x hx2
            rw [hn] at hxf
            exact absurd hxf (by simp)
        · intro hfalse
          rw [hbr] at hfalse
          exact absurd hfalse (by simp)
  · rw [if_neg hbr] at h
    simp only [Option.some.injEq] at h
    subst h
    have hmemr : ∀ y ∈ (if allin_flag = false ∧ num_bet < max_num_bet then
        candidates.raise.map
          (raise_candidate_of pot opponent_bet player_opponent)
      else ([] : List (ActionE × ℕ))),
        (∃ n, y.1 = ActionE.raise n) ∧ y.2 = player_opponent := by
      intro y hy
      by_cases hc : allin_flag = false ∧ num_bet < max_num_bet
      · rw [if_pos hc] at hy
        obtain ⟨bs, hbs, hybs⟩ := List.mem_map.mp hy
        cases bs with
        | potRelative r =>
          subst hybs
          exact ⟨⟨_, rfl⟩, rfl⟩
        | lastBetRelative r =>
          subst hybs
          exact ⟨⟨_, rfl⟩, rfl⟩
      · rw [if_neg hc] at hy
        simp at hy
    constructor
    · intro x hx
      rcases List.mem_append.mp hx with hx1 | hx2
      · rcases List.mem_cons.mp hx1 with he | he2
        · subst he
          rfl
        · rcases List.mem_cons.mp he2 with he3 | he4
          · subst he3
            rfl
          · simp at he4
      · obtain ⟨⟨n, hn⟩, h2⟩ := hmemr x hx2
        rw [h2, hn]
        rfl
    · constructor
      · intro heff
        simpa using hbr
      · intro hff
        exact ⟨(ActionE.fold, PLAYER_FOLD_FLAG ||| player), by simp, rfl⟩

lemma matchesCheckBranch_false_iff {a : ActionE}
    (hnf : a ≠ ActionE.fold) (hnc : a ≠ ActionE.call) :
    matchesCheckBranch a = false ↔
      ((∃ n, a = ActionE.bet n) ∨ (∃ n, a = ActionE.raise n) ∨
        a = ActionE.allIn) := by
  cases a <;> simp_all [matchesCheckBranch]

/-- C7: at a player node whose incoming action is neither a fold nor a call
(fold children are terminal and call children are chance or terminal nodes,
so a player node never has one as parent), the pushed child action list is
strictly increasing under the derived order `None < Fold < Check < Call <
Bet(n) by n < Raise(n) by n < AllIn < Chance` — hence duplicate-free — and
it contains `Fold` exactly when the incoming action was a bet, raise, or
all-in. -/
theorem push_actions_children (node_player : ℕ) (node_amount : ℤ)
    (lastAction : ActionE)
    (player_bet opponent_bet num_bet max_num_bet : ℤ) (allin_flag : Bool)
    (initial_pot initial_stack : ℤ) (candidates : BetSizeCandidates)
    (is_river : Bool) (children : List (ActionE × ℕ))
    (hpa : pushActions node_player node_amount lastAction player_bet
      opponent_bet num_bet max_num_bet allin_flag initial_pot initial_stack
      candidates is_river = some children)
    (hnf : lastAction ≠ ActionE.fold) (hnc : lastAction ≠ ActionE.call) :
    (children.map Prod.fst).Pairwise actLt ∧
    (children.map Prod.fst).Nodup ∧
    (ActionE.fold ∈ children.map Prod.fst ↔
      ((∃ n, lastAction = ActionE.bet n) ∨
       (∃ n, lastAction = ActionE.raise n) ∨
       lastAction = ActionE.allIn)) := by
  rw [pushActions] at hpa
  cases hbase : base_actions lastAction node_player (node_player ^^^ 1)
      (player_after_call_of is_river)
      (player_after_check_of node_player (node_player ^^^ 1)
        (player_after_call_of is_river))
      (initial_pot + 2 * (node_amount + (opponent_bet - player_bet)))
      opponent_bet candidates num_bet max_num_bet allin_flag with
  | none =>
    rw [hbase] at hpa
    simp at hpa
  | some acts0 =>
    rw [hbase] at hpa
    simp only [Option.map_some', Option.some.injEq] at hpa
    obtain ⟨hsnd, hfold⟩ := base_actions_facts _ _ _ _ _ _ _ _ _ _ _ _ hbase
    subst hpa
    have hPW := finish_sorted
      (min (initial_stack - node_amount + player_bet)
        (opponent_bet + (opponent_bet - player_bet)))
      (initial_stack - node_amount + player_bet) acts0 _ _ _ _ hsnd
    refine ⟨hPW, hPW.imp (fun h => actLt_ne h), ?_⟩
    rw [finish_fold_mem, hfold, matchesCheckBranch_false_iff hnf hnc]

/-- Witness for C7: incoming bet of 2, empty candidate lists, river
node. -/
theorem push_actions_children_witness :
    (pushActions 0 0 (ActionE.bet 2) 0 2 1 1 false 2 10 ⟨[], []⟩ true =
        some [(ActionE.fold, 768), (ActionE.call, 256)] ∧
      ActionE.bet 2 ≠ ActionE.fold ∧ ActionE.bet 2 ≠ ActionE.call) ∧
    (([(ActionE.fold, 768), (ActionE.call, 256)].map Prod.fst).Pairwise
        actLt ∧
      ([(ActionE.fold, 768), (ActionE.call, 256)].map Prod.fst).Nodup ∧
      (ActionE.fold ∈
          [(ActionE.fold, 768), (ActionE.call, 256)].map Prod.fst ↔
        ((∃ n, ActionE.bet 2 = ActionE.bet n) ∨
         (∃ n, ActionE.bet 2 = ActionE.raise n) ∨
         ActionE.bet 2 = ActionE.allIn))) :=
  ⟨⟨by decide, by decide, by decide⟩,
   push_actions_children 0 0 (ActionE.bet 2) 0 2 1 1 false 2 10 ⟨[], []⟩
     true [(ActionE.fold, 768), (ActionE.call, 256)] (by decide) (by decide)
     (by decide)⟩

end PostflopSolver
